import Mathlib

/-!
Shallow embedding of the RingCT library (Ristretto-based confidential
transactions) and verification of its specification claims.

The Ristretto group is cyclic of prime order ℓ; we model points in
discrete-log coordinates: a point P is represented by its scalar k with
P = k·G, so `Pt := ZMod ℓ` with the basepoint G represented by 1.
Scalars are `ZMod ℓ` as well.  Point addition is addition, scalar
multiplication is ring multiplication; this is an exact (isomorphic)
model of the prime-order group.

Byte strings are `List ℕ`.  The hash functions (Blake2b digests, the
uniform-bytes hash to point) and the Ristretto point compressions are
cryptographic black boxes: they are fields of a `Crypto` parameter
structure, and every theorem is proved for all instantiations.  The
batched encoding `batch_encode_points` is `double_and_compress_batch`
from curve25519-dalek, whose output for each point depends only on that
point; it is therefore modelled as a pointwise map of a second
compression function `benc`, distinct from the single-point `enc`
(the source documents that the two encodings may differ).
-/

/-- Order of the Ristretto / Curve25519 scalar field:
ℓ = 2^252 + 27742317777372353535851937790883648493. -/
def curveOrder : ℕ := 2 ^ 252 + 27742317777372353535851937790883648493

/-- Scalars: the field of exponents mod ℓ (curve.rs: Scalar). -/
abbrev Scalar : Type := ZMod curveOrder

/-- Points of the prime-order Ristretto group in discrete-log
coordinates relative to the basepoint G (curve.rs: RistrettoPoint). -/
abbrev Pt : Type := ZMod curveOrder

/-- Byte strings. -/
abbrev Bytes : Type := List ℕ

/-- The basepoint G (= RISTRETTO_BASEPOINT_POINT); in discrete-log
coordinates it is 1. -/
def Gpt : Pt := 1

/-- Little-endian interpretation of bytes as a natural number
(Scalar::from_bytes_mod_order before the final reduction). -/
def bytesToNat : Bytes → ℕ
  | [] => 0
  | b :: bs => b + 256 * bytesToNat bs

/-- Canonical 32-byte little-endian encoding of a natural number
(Scalar::to_bytes / as_bytes). -/
def natToBytes32 (n : ℕ) : Bytes :=
  (List.range 32).map (fun i => n / 256 ^ i % 256)

/-- Scalar::as_bytes for a reduced scalar. -/
def scalarBytes (s : Scalar) : Bytes := natToBytes32 s.val

/-- Byte representation of constants::BASEPOINT_ORDER (the FILLER_SCALAR
of clsag.rs / mlsag.rs / borromean.rs): dalek stores this scalar
unreduced, so its to_bytes is the little-endian encoding of ℓ itself. -/
def fillerBytes : Bytes := natToBytes32 curveOrder

/-- Abstract cryptographic primitives of curve.rs / hashes.rs.
Every theorem below is proved for an arbitrary instantiation. -/
structure Crypto where
  /-- encode_point: single-point Ristretto compression. -/
  enc : Pt → Bytes
  /-- Per-point output of batch_encode_points
  (double_and_compress_batch); may differ from enc. -/
  benc : Pt → Bytes
  /-- h_bytes: Blake2b-256 digest. -/
  hB : Bytes → Bytes
  /-- h_point: Blake2b-512 digest followed by from_uniform_bytes. -/
  hP : Bytes → Pt

/-- batch_encode_points (curve.rs): pointwise double-and-compress of
each point of the batch. -/
def batchEncodePoints (c : Crypto) (ps : List Pt) : List Bytes :=
  ps.map c.benc

/-- Scalar::from_bytes_mod_order. -/
def toScalar (bs : Bytes) : Scalar := (bytesToNat bs : Scalar)

/-- h_scalar (hashes.rs): from_bytes_mod_order of the 32-byte digest. -/
def hScalar (c : Crypto) (msg : Bytes) : Scalar := toScalar (c.hB msg)

/-- domain_h_bytes (hashes.rs): digest of msg ++ domain. -/
def domHBytes (c : Crypto) (msg dom : Bytes) : Bytes := c.hB (msg ++ dom)

/-- domain_h_scalar (hashes.rs). -/
def domHScalar (c : Crypto) (msg dom : Bytes) : Scalar :=
  toScalar (domHBytes c msg dom)

/-- domain_h_point (hashes.rs). -/
def domHPoint (c : Crypto) (msg dom : Bytes) : Pt := c.hP (msg ++ dom)

/-- Domain tag "key_img" (hashes.rs, SIGNATURE_KEY_IMAGE), ASCII. -/
def keyImgDomain : Bytes := [107, 101, 121, 95, 105, 109, 103]

/-- Domain tag "clsag_link" (CLSAG_LINKING), ASCII. -/
def clsagLinkDomain : Bytes := [99, 108, 115, 97, 103, 95, 108, 105, 110, 107]

/-- Domain tag "clsag_aux" (CLSAG_AUXILIARY), ASCII. -/
def clsagAuxDomain : Bytes := [99, 108, 115, 97, 103, 95, 97, 117, 120]

/-- Domain tag "clsag_com" (CLSAG_COMMITMENT), ASCII. -/
def clsagComDomain : Bytes := [99, 108, 115, 97, 103, 95, 99, 111, 109]

/-- PEDERSEN_H (pedersen.rs): h_point of the encoding of G. -/
def Hpt (c : Crypto) : Pt := c.hP (c.enc Gpt)

/-- Commitment::commit (types.rs): r·G + v·H. -/
def commit (c : Crypto) (value : ℕ) (blinding : Scalar) : Pt :=
  blinding * Gpt + (value : Scalar) * Hpt c

/-- Commitment::is_balanced (types.rs): appends extra·H to the outputs
and compares the two sums. -/
def isBalanced (c : Crypto) (ins outs : List Pt) (extra : ℕ) : Bool :=
  decide (ins.sum = (outs ++ [(extra : Scalar) * Hpt c]).sum)

/-- Enote (types.rs): public owner key and commitment point. -/
structure Enote where
  owner : Pt
  commitment : Pt
deriving DecidableEq

/-- EnoteKeys (types.rs): owner secret, value, blinding. -/
structure EnoteKeys where
  owner : Scalar
  value : ℕ
  blinding : Scalar
deriving DecidableEq

/-- EnoteKeys::to_enote. -/
def toEnote (c : Crypto) (k : EnoteKeys) : Enote :=
  ⟨k.owner * Gpt, commit c k.value k.blinding⟩

/-- Signature errors (errors.rs). -/
inductive SigErr where
  | Invalid
  | Malformed
  | EnoteNotInRing
  | UnsortedRing
  | Unspecified (msg : String)
deriving DecidableEq

/-- Rangeproof errors (errors.rs). -/
inductive RPErr where
  | Invalid
  | Malformed
  | TooLargeAggregationSize
  | OutOfRange
  | Unspecified (msg : String)
deriving DecidableEq

instance : Inhabited Enote := ⟨⟨0, 0⟩⟩

instance {ε α : Type} [DecidableEq ε] [DecidableEq α] :
    DecidableEq (Except ε α) := fun a b =>
  match a, b with
  | .error e1, .error e2 =>
    match decEq e1 e2 with
    | .isTrue h => .isTrue (congrArg Except.error h)
    | .isFalse h => .isFalse (fun hEq => h (Except.error.inj hEq))
  | .error _, .ok _ => .isFalse (fun hEq => Except.noConfusion hEq)
  | .ok _, .error _ => .isFalse (fun hEq => Except.noConfusion hEq)
  | .ok a1, .ok a2 =>
    match decEq a1 a2 with
    | .isTrue h => .isTrue (congrArg Except.ok h)
    | .isFalse h => .isFalse (fun hEq => h (Except.ok.inj hEq))

/-- Generic access helper: getD through a map, inside the bounds. -/
theorem getD_map_of_lt {α β : Type} (f : α → β) (l : List α) (i : ℕ)
    (d₁ : β) (d₂ : α) (h : i < l.length) :
    (l.map f).getD i d₁ = f (l.getD i d₂) := by
  simp [List.getD_eq_getElem?_getD, List.getElem?_map,
    List.getElem?_eq_getElem h]

/-- Generic access helper: getD of a map over List.range. -/
theorem getD_range_map {α : Type} (f : ℕ → α) (n i : ℕ) (d : α)
    (h : i < n) :
    ((List.range n).map f).getD i d = f i := by
  simp [List.getD_eq_getElem?_getD, List.getElem?_map,
    List.getElem?_range h]

/-- Rebuilding a list by indexed access is the identity. -/
theorem range_map_getD {α β : Type} (l : List α) (f : α → β) (d : α) :
    (List.range l.length).map (fun i => f (l.getD i d)) = l.map f := by
  apply List.ext_getElem
  · simp
  · intro i h₁ h₂
    simp only [List.getElem_map, List.getElem_range]
    rw [List.getD_eq_getElem?_getD, List.getElem?_eq_getElem (by simpa using h₂)]
    rfl

/-- separate_ring (signature_utils.rs): parallel owner and commitment
point vectors. -/
def separateRing (ring : List Enote) : List Pt × List Pt :=
  (ring.map Enote.owner, ring.map Enote.commitment)

/-- encode_rings (signature_utils.rs): one batched compression over
ring_l ++ ring_c, split back into the two halves. -/
def encodeRings (c : Crypto) (ringL ringC : List Pt) :
    List Bytes × List Bytes :=
  let n := ringL.length
  let encoded := batchEncodePoints c (ringL ++ ringC)
  (encoded.take n, (encoded.drop n).take n)

theorem encodeRings_fst (c : Crypto) (ringL ringC : List Pt) :
    (encodeRings c ringL ringC).1 = ringL.map c.benc := by
  simp only [encodeRings, batchEncodePoints, List.map_append]
  rw [← List.length_map ringL c.benc, List.take_left]

theorem encodeRings_snd (c : Crypto) (ringL ringC : List Pt)
    (h : ringC.length ≤ ringL.length) :
    (encodeRings c ringL ringC).2 = ringC.map c.benc := by
  simp only [encodeRings, batchEncodePoints, List.map_append]
  rw [← List.length_map ringL c.benc, List.drop_left,
    List.take_of_length_le (by simpa using h)]

/-- The 64-byte canonical encoding of an enote: batch encoding of the
owner followed by batch encoding of the commitment. -/
def encE (c : Crypto) (e : Enote) : Bytes :=
  c.benc e.owner ++ c.benc e.commitment

/-- The encoded-enote list that ring_is_sorted / ring_as_sorted build
from the split encodings (signature_utils.rs). -/
def ringEncoded (c : Crypto) (ring : List Enote) : List Bytes :=
  let eL := (encodeRings c (ring.map Enote.owner) (ring.map Enote.commitment)).1
  let eC := (encodeRings c (ring.map Enote.owner) (ring.map Enote.commitment)).2
  (List.range ring.length).map (fun i => eL.getD i [] ++ eC.getD i [])

theorem ringEncoded_eq (c : Crypto) (ring : List Enote) :
    ringEncoded c ring = ring.map (encE c) := by
  unfold ringEncoded
  rw [encodeRings_fst, encodeRings_snd _ _ _ (by simp)]
  have h1 : ∀ i ∈ List.range ring.length,
      ((ring.map Enote.owner).map c.benc).getD i [] ++
        ((ring.map Enote.commitment).map c.benc).getD i [] =
        encE c (ring.getD i default) := by
    intro i hi
    have hlt : i < ring.length := List.mem_range.mp hi
    rw [getD_map_of_lt c.benc _ i [] 0 (by simpa using hlt),
      getD_map_of_lt c.benc _ i [] 0 (by simpa using hlt),
      getD_map_of_lt Enote.owner _ i 0 default hlt,
      getD_map_of_lt Enote.commitment _ i 0 default hlt]
    rfl
  rw [List.map_congr_left h1, range_map_getD ring (encE c) default]

/-- Lexicographic strict comparison of byte strings (Rust's Ord on
byte arrays). -/
def bytesLt : Bytes → Bytes → Bool
  | _, [] => false
  | [], _ :: _ => true
  | a :: as, b :: bs => if a < b then true else if a = b then bytesLt as bs else false

/-- Lexicographic non-strict comparison of byte strings. -/
def bytesLe (x y : Bytes) : Bool := bytesLt x y || decide (x = y)

theorem bytesLt_irrefl : ∀ x : Bytes, bytesLt x x = false
  | [] => rfl
  | _ :: as => by simp [bytesLt, bytesLt_irrefl as]

theorem bytesLt_trans : ∀ x y z : Bytes, bytesLt x y = true →
    bytesLt y z = true → bytesLt x z = true
  | _, _, [], _, h2 => by simp [bytesLt] at h2
  | [], _ :: _, _ :: _, _, _ => rfl
  | _ :: _, [], _, h1, _ => by simp [bytesLt] at h1
  | a :: as, b :: bs, d :: ds, h1, h2 => by
    simp only [bytesLt] at h1 h2 ⊢
    split at h1
    · split at h2
      · simp [show a < d by omega]
      · split at h2
        · simp [show a < d by omega]
        · exact absurd h2 (by simp)
    · split at h1
      · split at h2
        · simp [show a < d by omega]
        · split at h2
          · rw [if_neg (by omega : ¬ a < d), if_pos (by omega : a = d)]
            exact bytesLt_trans as bs ds h1 h2
          · exact absurd h2 (by simp)
      · exact absurd h1 (by simp)

theorem bytesLt_total : ∀ x y : Bytes,
    bytesLt x y = true ∨ x = y ∨ bytesLt y x = true
  | [], [] => Or.inr (Or.inl rfl)
  | [], _ :: _ => Or.inl rfl
  | _ :: _, [] => Or.inr (Or.inr rfl)
  | a :: as, b :: bs => by
    rcases Nat.lt_trichotomy a b with h | h | h
    · exact Or.inl (by simp [bytesLt, h])
    · rcases bytesLt_total as bs with h2 | h2 | h2
      · exact Or.inl (by simp [bytesLt, h, h2])
      · exact Or.inr (Or.inl (by rw [h, h2]))
      · exact Or.inr (Or.inr (by simp [bytesLt, h, h2]))
    · exact Or.inr (Or.inr (by simp [bytesLt, h]))

/-- The non-strict byte order as a relation, for sorting. -/
def bytesLeR (x y : Bytes) : Prop := bytesLe x y = true

instance : DecidableRel bytesLeR := fun x y => by
  unfold bytesLeR; infer_instance

instance : IsTotal Bytes bytesLeR where
  total x y := by
    rcases bytesLt_total x y with h | h | h
    · exact Or.inl (by simp [bytesLeR, bytesLe, h])
    · exact Or.inl (by simp [bytesLeR, bytesLe, h])
    · exact Or.inr (by simp [bytesLeR, bytesLe, h])

instance : IsTrans Bytes bytesLeR where
  trans x y z h1 h2 := by
    simp only [bytesLeR, bytesLe, Bool.or_eq_true, decide_eq_true_eq] at h1 h2 ⊢
    rcases h1 with h1 | rfl
    · rcases h2 with h2 | rfl
      · exact Or.inl (bytesLt_trans x y z h1 h2)
      · exact Or.inl h1
    · exact h2

/-- Strict ascending check over adjacent pairs: the windows(2) test of
ring_is_sorted (signature_utils.rs). -/
def bytesSortedStrict : List Bytes → Bool
  | [] => true
  | [_] => true
  | a :: b :: rest => bytesLt a b && bytesSortedStrict (b :: rest)

/-- ring_is_sorted (signature_utils.rs) composed with the encoding
pipeline, i.e. Ring::is_sorted (types.rs). -/
def ringIsSorted (c : Crypto) (ring : List Enote) : Bool :=
  bytesSortedStrict (ringEncoded c ring)

/-- Strict byte order as a relation. -/
def bytesLtR (x y : Bytes) : Prop := bytesLt x y = true

instance : IsTrans Bytes bytesLtR where
  trans x y z h1 h2 := bytesLt_trans x y z h1 h2

/-- Vec::dedup: drop adjacent duplicates. -/
def dedupAdj : List Bytes → List Bytes
  | [] => []
  | [a] => [a]
  | a :: b :: rest =>
    if a = b then dedupAdj (b :: rest) else a :: dedupAdj (b :: rest)

/-- HashMap semantics of ring_as_sorted: the enote stored under an
encoded key is the one inserted last with that key. -/
def ringLookup (c : Crypto) (ring : List Enote) (b : Bytes) : Enote :=
  (ring.filter (fun e => decide (encE c e = b))).getLastD default

/-- ring_as_sorted (signature_utils.rs), i.e. Ring::sort (types.rs):
sort the 64-byte encodings, drop duplicates, and map each encoding back
to its enote through the hash map. -/
def ringAsSorted (c : Crypto) (ring : List Enote) : List Enote :=
  (dedupAdj (List.insertionSort bytesLeR (ringEncoded c ring))).map
    (ringLookup c ring)

theorem getLastD_mem {α : Type} : ∀ (l : List α) (d : α), l ≠ [] →
    l.getLastD d ∈ l
  | a :: t, d, _ => by
    rw [List.getLastD_cons]
    cases t with
    | nil => simp [List.getLastD]
    | cons b u => exact List.mem_cons_of_mem a (getLastD_mem (b :: u) a (by simp))

theorem dedupAdj_subset : ∀ (l : List Bytes) (x : Bytes),
    x ∈ dedupAdj l → x ∈ l
  | [], _, h => by simp [dedupAdj] at h
  | [a], _, h => by simpa [dedupAdj] using h
  | a :: b :: rest, x, h => by
    by_cases hab : a = b
    · rw [dedupAdj, if_pos hab] at h
      exact List.mem_cons_of_mem a (dedupAdj_subset (b :: rest) x h)
    · rw [dedupAdj, if_neg hab] at h
      rcases List.mem_cons.mp h with rfl | h2
      · exact List.mem_cons_self x (b :: rest)
      · exact List.mem_cons_of_mem a (dedupAdj_subset (b :: rest) x h2)

theorem dedupAdj_cons : ∀ (rest : List Bytes) (b : Bytes),
    ∃ t, dedupAdj (b :: rest) = b :: t
  | [], b => ⟨[], rfl⟩
  | r :: t, b => by
    by_cases h : b = r
    · subst h
      obtain ⟨u, hu⟩ := dedupAdj_cons t b
      exact ⟨u, by rw [dedupAdj, if_pos rfl, hu]⟩
    · exact ⟨dedupAdj (r :: t), by rw [dedupAdj, if_neg h]⟩

theorem dedupAdj_strict : ∀ l : List Bytes, List.Pairwise bytesLeR l →
    bytesSortedStrict (dedupAdj l) = true
  | [], _ => rfl
  | [_], _ => rfl
  | a :: b :: rest, h => by
    have hab : bytesLeR a b := (List.pairwise_cons.mp h).1 b (by simp)
    have hrest : List.Pairwise bytesLeR (b :: rest) :=
      (List.pairwise_cons.mp h).2
    have hrec := dedupAdj_strict (b :: rest) hrest
    by_cases hEq : a = b
    · rw [dedupAdj, if_pos hEq]
      exact hrec
    · rw [dedupAdj, if_neg hEq]
      obtain ⟨t, ht⟩ := dedupAdj_cons rest b
      have hlt : bytesLt a b = true := by
        simpa [bytesLeR, bytesLe, hEq] using hab
      rw [ht]
      rw [ht] at hrec
      simp [bytesSortedStrict, hlt, hrec]

theorem strict_chain : ∀ l : List Bytes,
    bytesSortedStrict l = true ↔ List.Chain' bytesLtR l
  | [] => by simp [bytesSortedStrict]
  | [a] => by simp [bytesSortedStrict]
  | a :: b :: rest => by
    rw [List.chain'_cons, ← strict_chain (b :: rest)]
    simp [bytesSortedStrict, bytesLtR]

theorem strict_pairwise (l : List Bytes) (h : bytesSortedStrict l = true) :
    List.Pairwise bytesLtR l :=
  List.chain'_iff_pairwise.mp ((strict_chain l).mp h)

theorem dedupAdj_of_strict : ∀ l : List Bytes,
    bytesSortedStrict l = true → dedupAdj l = l
  | [], _ => rfl
  | [_], _ => rfl
  | a :: b :: rest, h => by
    obtain ⟨hlt, hrest⟩ : bytesLt a b = true ∧
        bytesSortedStrict (b :: rest) = true := by
      simpa [bytesSortedStrict] using h
    have hne : a ≠ b := by
      intro hEq
      rw [hEq, bytesLt_irrefl] at hlt
      exact absurd hlt (by simp)
    rw [dedupAdj, if_neg hne, dedupAdj_of_strict (b :: rest) hrest]

theorem ringLookup_spec (c : Crypto) (ring : List Enote) (b : Bytes)
    (h : b ∈ ring.map (encE c)) :
    encE c (ringLookup c ring b) = b ∧ ringLookup c ring b ∈ ring := by
  obtain ⟨e, he, rfl⟩ := List.mem_map.mp h
  unfold ringLookup
  have hne : ring.filter (fun x => decide (encE c x = encE c e)) ≠ [] :=
    List.ne_nil_of_mem (List.mem_filter.mpr ⟨he, by simp⟩)
  have hmem := getLastD_mem _ default hne
  have hp := List.of_mem_filter hmem
  exact ⟨of_decide_eq_true hp, List.mem_of_mem_filter hmem⟩

theorem lookup_map_self (c : Crypto) : ∀ ring : List Enote,
    (ring.map (encE c)).Pairwise (fun a b => a ≠ b) →
    (ring.map (encE c)).map (ringLookup c ring) = ring
  | [], _ => rfl
  | e :: rest, h => by
    rw [List.map_cons] at h
    have hpc := List.pairwise_cons.mp h
    have hhead : ∀ x ∈ rest, ¬ (encE c x = encE c e) := by
      intro x hx hEq
      exact hpc.1 (encE c x) (List.mem_map_of_mem (encE c) hx) hEq.symm
    rw [List.map_cons, List.map_cons]
    congr 1
    · unfold ringLookup
      rw [List.filter_cons_of_pos (by simp)]
      have hrf : rest.filter (fun x => decide (encE c x = encE c e)) = [] :=
        List.filter_eq_nil_iff.mpr (by intro x hx; simpa using hhead x hx)
      rw [hrf]
      rfl
    · have hcong : ∀ b ∈ rest.map (encE c),
          ringLookup c (e :: rest) b = ringLookup c rest b := by
        intro b hb
        obtain ⟨x, hx, rfl⟩ := List.mem_map.mp hb
        unfold ringLookup
        rw [List.filter_cons_of_neg
          (by simpa using fun hEq => hhead x hx hEq.symm)]
      rw [List.map_congr_left hcong]
      exact lookup_map_self c rest hpc.2

theorem bytesLtR_le {x y : Bytes} (h : bytesLtR x y) : bytesLeR x y := by
  unfold bytesLtR at h
  simp [bytesLeR, bytesLe, h]

theorem bytesLtR_ne {x y : Bytes} (h : bytesLtR x y) : x ≠ y := by
  intro hEq
  unfold bytesLtR at h
  rw [hEq, bytesLt_irrefl] at h
  exact absurd h (by simp)

theorem ringAsSorted_isSorted (c : Crypto) (ring : List Enote) :
    ringIsSorted c (ringAsSorted c ring) = true := by
  unfold ringIsSorted ringAsSorted
  rw [ringEncoded_eq, List.map_map]
  have hmem : ∀ b ∈ dedupAdj (List.insertionSort bytesLeR (ringEncoded c ring)),
      (encE c ∘ ringLookup c ring) b = id b := by
    intro b hb
    have h1 := dedupAdj_subset _ _ hb
    have h2 : b ∈ ringEncoded c ring := (List.mem_insertionSort bytesLeR).mp h1
    rw [ringEncoded_eq] at h2
    exact (ringLookup_spec c ring b h2).1
  rw [List.map_congr_left hmem, List.map_id]
  exact dedupAdj_strict _ (List.sorted_insertionSort bytesLeR _)

theorem ringAsSorted_mem (c : Crypto) (ring : List Enote) :
    ∀ e ∈ ringAsSorted c ring, e ∈ ring := by
  intro e he
  unfold ringAsSorted at he
  obtain ⟨b, hb, rfl⟩ := List.mem_map.mp he
  have h2 : b ∈ ringEncoded c ring :=
    (List.mem_insertionSort bytesLeR).mp (dedupAdj_subset _ _ hb)
  rw [ringEncoded_eq] at h2
  exact (ringLookup_spec c ring b h2).2

theorem ringAsSorted_of_sorted (c : Crypto) (ring : List Enote)
    (h : ringIsSorted c ring = true) : ringAsSorted c ring = ring := by
  unfold ringAsSorted
  unfold ringIsSorted at h
  rw [ringEncoded_eq] at h ⊢
  have hpw : (ring.map (encE c)).Pairwise bytesLtR := strict_pairwise _ h
  have hle : List.Sorted bytesLeR (ring.map (encE c)) :=
    hpw.imp (fun hab => bytesLtR_le hab)
  rw [List.Sorted.insertionSort_eq hle, dedupAdj_of_strict _ h]
  exact lookup_map_self c ring (hpw.imp (fun hab => bytesLtR_ne hab))

/-- C10: Ring::sort produces a ring that passes Ring::is_sorted, made of
enotes of the original ring; on an already-sorted ring it is the
identity, and it is idempotent. -/
theorem c10_ring_sort_spec (c : Crypto) (ring : List Enote) :
    ringIsSorted c (ringAsSorted c ring) = true ∧
    (∀ e ∈ ringAsSorted c ring, e ∈ ring) ∧
    (ringIsSorted c ring = true → ringAsSorted c ring = ring) ∧
    ringAsSorted c (ringAsSorted c ring) = ringAsSorted c ring :=
  ⟨ringAsSorted_isSorted c ring, ringAsSorted_mem c ring,
    ringAsSorted_of_sorted c ring,
    ringAsSorted_of_sorted c (ringAsSorted c ring)
      (ringAsSorted_isSorted c ring)⟩

theorem commit_sum (c : Crypto) : ∀ l : List (ℕ × Scalar),
    (l.map (fun p => commit c p.1 p.2)).sum =
      (l.map Prod.snd).sum * Gpt + ((l.map Prod.fst).sum : Scalar) * Hpt c
  | [] => by simp
  | p :: rest => by
    rw [List.map_cons, List.sum_cons, commit_sum c rest]
    simp only [List.map_cons, List.sum_cons, commit]
    push_cast
    ring

/-- C5: is_balanced returns exactly the boolean Σ ins = Σ outs + extra·H,
and in particular returns true whenever the inputs and outputs are
commitments with matching value sums (offset by extra) and matching
blinding sums. -/
theorem c5_is_balanced_spec (c : Crypto) (ins outs : List Pt) (extra : ℕ) :
    (isBalanced c ins outs extra = true ↔
      ins.sum = outs.sum + (extra : Scalar) * Hpt c) ∧
    (∀ ivs ovs : List (ℕ × Scalar),
      ins = ivs.map (fun p => commit c p.1 p.2) →
      outs = ovs.map (fun p => commit c p.1 p.2) →
      (ivs.map Prod.fst).sum = (ovs.map Prod.fst).sum + extra →
      (ivs.map Prod.snd).sum = (ovs.map Prod.snd).sum →
      isBalanced c ins outs extra = true) := by
  constructor
  · simp [isBalanced]
  · intro ivs ovs hins houts hv hr
    simp only [isBalanced, decide_eq_true_eq, List.sum_append,
      List.sum_cons, List.sum_nil, add_zero]
    rw [hins, houts, commit_sum, commit_sum, hr, hv]
    push_cast
    ring

/-- Iterator::position: index of the first element satisfying p. -/
def findPos {α : Type} (p : α → Bool) : List α → Option ℕ
  | [] => none
  | a :: as => if p a then some 0 else (findPos p as).map (· + 1)

theorem findPos_lt {α : Type} (p : α → Bool) : ∀ (l : List α) (j : ℕ),
    findPos p l = some j → j < l.length
  | [], _, h => by rw [findPos] at h; exact Option.noConfusion h
  | a :: as, j, h => by
    by_cases hp : p a
    · rw [findPos, if_pos hp] at h
      cases h
      simp
    · rw [findPos, if_neg hp] at h
      cases hf : findPos p as with
      | none => rw [hf] at h; simp at h
      | some k =>
        rw [hf] at h
        simp only [Option.map_some'] at h
        have := findPos_lt p as k hf
        cases h
        simp only [List.length_cons]
        omega

theorem findPos_getD {α : Type} (p : α → Bool) (d : α) :
    ∀ (l : List α) (j : ℕ), findPos p l = some j → p (l.getD j d) = true
  | [], _, h => by rw [findPos] at h; exact Option.noConfusion h
  | a :: as, j, h => by
    by_cases hp : p a
    · rw [findPos, if_pos hp] at h
      cases h
      simpa using hp
    · rw [findPos, if_neg hp] at h
      cases hf : findPos p as with
      | none => rw [hf] at h; simp at h
      | some k =>
        rw [hf] at h
        simp only [Option.map_some'] at h
        cases h
        simpa using findPos_getD p d as k hf

theorem findPos_of_mem {α : Type} (p : α → Bool) : ∀ (l : List α) (a : α),
    a ∈ l → p a = true → ∃ j, findPos p l = some j
  | a :: as, b, hmem, hb => by
    by_cases hp : p a
    · exact ⟨0, by rw [findPos, if_pos hp]⟩
    · rcases List.mem_cons.mp hmem with rfl | h2
      · exact absurd hb hp
      · obtain ⟨j, hj⟩ := findPos_of_mem p as b h2 hb
        exact ⟨j + 1, by rw [findPos, if_neg hp, hj]; rfl⟩

/-- The deterministic scalar chain of sign_internal (clsag.rs /
mlsag.rs): starting from the FILLER_SCALAR bytes, each step hashes the
previous scalar's bytes followed by the seed. -/
def seedChain (c : Crypto) (seed : Bytes) : ℕ → Scalar
  | 0 => 0
  | 1 => hScalar c (fillerBytes ++ seed)
  | t + 2 => hScalar c (scalarBytes (seedChain c seed (t + 1)) ++ seed)

/-- h_key_image_point (signature_utils.rs): domain hash to point with
the "key_img" tag. -/
def hKeyImagePoint (c : Crypto) (msg : Bytes) : Pt :=
  domHPoint c msg keyImgDomain

/-- get_key_image_points (signature_utils.rs). -/
def kiPoints (c : Crypto) (encodedPubs : List Bytes) : List Pt :=
  encodedPubs.map (hKeyImagePoint c)

/-- get_key_image (signature_utils.rs): k times the key-image point of
the batch encoding of k·G. -/
def getKeyImage (c : Crypto) (k : Scalar) : Pt :=
  k * hKeyImagePoint c ((batchEncodePoints c [k * Gpt]).getD 0 [])

/-- shift_commitments (signature_utils.rs): add ZERO_POINT − pseudo_out
to every commitment. -/
def shiftCommitments (unshifted : List Pt) (pseudoOut : Pt) : List Pt :=
  unshifted.map (fun com => com + (0 - pseudoOut))

/-- Encoded owner keys of a ring (first half of encode_rings applied to
separate_ring). -/
def clsagEncL (c : Crypto) (ring : List Enote) : List Bytes :=
  (encodeRings c (separateRing ring).1 (separateRing ring).2).1

/-- Encoded unshifted commitments of a ring (second half). -/
def clsagEncC (c : Crypto) (ring : List Enote) : List Bytes :=
  (encodeRings c (separateRing ring).1 (separateRing ring).2).2

/-- Key-image points of a ring's encoded owners. -/
def clsagHpts (c : Crypto) (ring : List Enote) : List Pt :=
  kiPoints c (clsagEncL c ring)

/-- create_message (clsag.rs): hash of message, both encoded rings, and
the batch encoding of (pseudo_out, key_image, auxiliary). -/
def clsagM (c : Crypto) (ring : List Enote)
    (pseudoOut keyImage aux : Pt) (msg : Bytes) : Bytes :=
  c.hB (msg ++ (clsagEncL c ring).flatten ++ (clsagEncC c ring).flatten ++
    (batchEncodePoints c [pseudoOut, keyImage, aux]).flatten)

/-- Aggregated ring keys W_i (clsag.rs): μ_L·L_i + μ_C·C_i over the
shifted commitments. -/
def clsagWLeft (c : Crypto) (ring : List Enote) (pseudoOut : Pt)
    (m : Bytes) : List Pt :=
  (List.range ring.length).map (fun x =>
    domHScalar c m clsagLinkDomain * (separateRing ring).1.getD x 0 +
    domHScalar c m clsagAuxDomain *
      (shiftCommitments (separateRing ring).2 pseudoOut).getD x 0)

/-- Aggregated image W (clsag.rs): μ_L·I + μ_C·A. -/
def clsagWRight (c : Crypto) (m : Bytes) (keyImage aux : Pt) : Pt :=
  domHScalar c m clsagLinkDomain * keyImage +
    domHScalar c m clsagAuxDomain * aux

/-- One challenge of the CLSAG ring walk: domain hash of m and the batch
encoding of (left, right). -/
def clsagChalOf (c : Crypto) (m : Bytes) (lr : Pt × Pt) : Scalar :=
  domHScalar c (m ++ (batchEncodePoints c [lr.1, lr.2]).flatten)
    clsagComDomain

/-- The (left, right) pair prepared at slot i with challenge ch
(clsag.rs, both in sign_internal and verify_internal). -/
def clsagStep (c : Crypto) (s : List Scalar) (hpts wLeft : List Pt)
    (wRight : Pt) : ℕ → Scalar → Pt × Pt :=
  fun i ch =>
    (s.getD i 0 * Gpt + ch * wLeft.getD i 0,
     s.getD i 0 * hpts.getD i 0 + ch * wRight)

/-- The ring-walk loop shared by clsag.rs and mlsag.rs sign_internal:
starting at the signer's slot j, repeatedly advance i to (i+1) mod n,
hash the prepared state into the next challenge, record it as c_0 when
i reaches 0, stop when i returns to j, and otherwise prepare the next
state with f.  Returns (challenge at the break, recorded c_0).  The
fuel argument is the loop bound n of the Rust for-loop; the initial
challenge/c_0 placeholders are the unused initializers. -/
def ringWalk {σ : Type} (n j : ℕ) (chalOf : σ → Scalar)
    (f : ℕ → Scalar → σ) : ℕ → ℕ → Scalar → Scalar → σ → Scalar × Scalar
  | 0, _, ci, c0, _ => (ci, c0)
  | fuel + 1, i, _, c0, st =>
    let i' := (i + 1) % n
    let c' := chalOf st
    let c0' := if i' = 0 then c' else c0
    if i' = j then (c', c0')
    else ringWalk n j chalOf f fuel i' c' c0' (f i' c')

/-- CLSAGSignature (clsag.rs). -/
structure CLSAGSignature where
  keyImage : Pt
  c0 : Scalar
  s : List Scalar
  auxiliary : Pt
deriving DecidableEq

/-- Key image computed in sign_internal (clsag.rs / mlsag.rs):
owner times the key-image point of the signer's slot j. -/
def clsagKeyImageAt (c : Crypto) (ring : List Enote) (keys : EnoteKeys)
    (j : ℕ) : Pt :=
  keys.owner * (clsagHpts c ring).getD j 0

/-- Auxiliary point of sign_internal (clsag.rs): commitment key
(blinding − pseudo-out blinding) times the signer's key-image point. -/
def clsagAuxAt (c : Crypto) (ring : List Enote) (keys : EnoteKeys)
    (r' : Scalar) (j : ℕ) : Pt :=
  (keys.blinding - r') * (clsagHpts c ring).getD j 0

/-- Signed message m of sign_internal (clsag.rs). -/
def clsagMAt (c : Crypto) (ring : List Enote) (keys : EnoteKeys)
    (r' : Scalar) (msg : Bytes) (j : ℕ) : Bytes :=
  clsagM c ring (commit c keys.value r') (clsagKeyImageAt c ring keys j)
    (clsagAuxAt c ring keys r' j) msg

/-- Deterministic response scalars s of sign_internal (clsag.rs). -/
def clsagSAt (c : Crypto) (ring : List Enote) (keys : EnoteKeys)
    (r' : Scalar) (msg : Bytes) (j : ℕ) : List Scalar :=
  (List.range ring.length).map (fun t =>
    seedChain c (scalarBytes keys.owner ++ scalarBytes r' ++
      clsagMAt c ring keys r' msg j) (t + 1))

/-- Aggregated secret key w of sign_internal (clsag.rs). -/
def clsagWSecretAt (c : Crypto) (ring : List Enote) (keys : EnoteKeys)
    (r' : Scalar) (msg : Bytes) (j : ℕ) : Scalar :=
  domHScalar c (clsagMAt c ring keys r' msg j) clsagLinkDomain * keys.owner +
    domHScalar c (clsagMAt c ring keys r' msg j) clsagAuxDomain *
      (keys.blinding - r')

/-- The ring-walk loop of sign_internal (clsag.rs), started at the
signer's slot with left = s_j·G and right = s_j·H_j. -/
def clsagWalkAt (c : Crypto) (ring : List Enote) (keys : EnoteKeys)
    (r' : Scalar) (msg : Bytes) (j : ℕ) : Scalar × Scalar :=
  ringWalk ring.length j (clsagChalOf c (clsagMAt c ring keys r' msg j))
    (clsagStep c (clsagSAt c ring keys r' msg j) (clsagHpts c ring)
      (clsagWLeft c ring (commit c keys.value r') (clsagMAt c ring keys r' msg j))
      (clsagWRight c (clsagMAt c ring keys r' msg j)
        (clsagKeyImageAt c ring keys j) (clsagAuxAt c ring keys r' j)))
    ring.length j 1 1
    ((clsagSAt c ring keys r' msg j).getD j 0 * Gpt,
     (clsagSAt c ring keys r' msg j).getD j 0 * (clsagHpts c ring).getD j 0)

/-- The signature assembled by sign_internal (clsag.rs) when the
signer's enote sits at slot j: the s vector is patched at j with
s_j − c_j·w. -/
def clsagSigAt (c : Crypto) (ring : List Enote) (keys : EnoteKeys)
    (r' : Scalar) (msg : Bytes) (j : ℕ) : CLSAGSignature :=
  ⟨clsagKeyImageAt c ring keys j,
   (clsagWalkAt c ring keys r' msg j).2,
   (clsagSAt c ring keys r' msg j).set j
     ((clsagSAt c ring keys r' msg j).getD j 0 -
       (clsagWalkAt c ring keys r' msg j).1 * clsagWSecretAt c ring keys r' msg j),
   clsagAuxAt c ring keys r' j⟩

/-- CLSAGSignature::sign_internal: locate the signer's enote, then emit
the pseudo-out commitment and the signature built by the ring walk. -/
def clsagSignInternal (c : Crypto) (ring : List Enote) (keys : EnoteKeys)
    (pseudoOutBlinding : Scalar) (msg : Bytes) :
    Except SigErr (Pt × CLSAGSignature) :=
  match findPos (fun e => decide (e = toEnote c keys)) ring with
  | none => .error .EnoteNotInRing
  | some j =>
    .ok (commit c keys.value pseudoOutBlinding,
      clsagSigAt c ring keys pseudoOutBlinding msg j)

/-- CLSAGSignature::verify_internal. -/
def clsagVerifyInternal (c : Crypto) (sig : CLSAGSignature)
    (ring : List Enote) (pseudoOut : Pt) (msg : Bytes) :
    Except SigErr Unit :=
  if sig.s.length ≠ ring.length then .error .Malformed
  else
    let hpts := clsagHpts c ring
    let m := clsagM c ring pseudoOut sig.keyImage sig.auxiliary msg
    let wLeft := clsagWLeft c ring pseudoOut m
    let wRight := clsagWRight c m sig.keyImage sig.auxiliary
    let final := (List.range ring.length).foldl
      (fun ch i => clsagChalOf c m (clsagStep c sig.s hpts wLeft wRight i ch))
      sig.c0
    if final = sig.c0 then .ok () else .error .Invalid

/-- CLSAGSignature::sign: sorted-ring precondition, then sign_internal. -/
def clsagSign (c : Crypto) (ring : List Enote) (keys : EnoteKeys)
    (pseudoOutBlinding : Scalar) (msg : Bytes) :
    Except SigErr (Pt × CLSAGSignature) :=
  if ringIsSorted c ring then clsagSignInternal c ring keys pseudoOutBlinding msg
  else .error .UnsortedRing

/-- CLSAGSignature::sign_unsorted. -/
def clsagSignUnsorted (c : Crypto) (ring : List Enote) (keys : EnoteKeys)
    (pseudoOutBlinding : Scalar) (msg : Bytes) :
    Except SigErr (Pt × CLSAGSignature) :=
  clsagSignInternal c ring keys pseudoOutBlinding msg

/-- CLSAGSignature::verify: sorted-ring precondition, then
verify_internal. -/
def clsagVerify (c : Crypto) (sig : CLSAGSignature) (ring : List Enote)
    (pseudoOut : Pt) (msg : Bytes) : Except SigErr Unit :=
  if ringIsSorted c ring then clsagVerifyInternal c sig ring pseudoOut msg
  else .error .UnsortedRing

/-- CLSAGSignature::verify_unsorted. -/
def clsagVerifyUnsorted (c : Crypto) (sig : CLSAGSignature)
    (ring : List Enote) (pseudoOut : Pt) (msg : Bytes) :
    Except SigErr Unit :=
  clsagVerifyInternal c sig ring pseudoOut msg

/-- MLSAGSignature (mlsag.rs); s[0] is the linking layer s_l, s[1] the
commitment layer s_c. -/
structure MLSAGSignature where
  keyImage : Pt
  e0 : Scalar
  sL : List Scalar
  sC : List Scalar
deriving DecidableEq

/-- create_message (mlsag.rs): hash of message, both encoded rings, and
the batch encoding of (pseudo_out, key_image). -/
def mlsagM (c : Crypto) (ring : List Enote) (pseudoOut keyImage : Pt)
    (msg : Bytes) : Bytes :=
  c.hB (msg ++ (clsagEncL c ring).flatten ++ (clsagEncC c ring).flatten ++
    (batchEncodePoints c [pseudoOut, keyImage]).flatten)

/-- One challenge of the MLSAG ring walk: plain hash of m and the batch
encoding of (left, right, commitment chain point). -/
def mlsagChalOf (c : Crypto) (m : Bytes) (t : Pt × Pt × Pt) : Scalar :=
  hScalar c (m ++ (batchEncodePoints c [t.1, t.2.1, t.2.2]).flatten)

/-- The (left, right, c_i) triple prepared at slot i with challenge e
(mlsag.rs, both in sign_internal and verify_internal). -/
def mlsagStep (c : Crypto) (sL sC : List Scalar)
    (hpts ringL ringC : List Pt) (keyImage : Pt) :
    ℕ → Scalar → Pt × Pt × Pt :=
  fun i e =>
    (sL.getD i 0 * Gpt + e * ringL.getD i 0,
     sL.getD i 0 * hpts.getD i 0 + e * keyImage,
     sC.getD i 0 * Gpt - e * ringC.getD i 0)

/-- Signed message m of sign_internal (mlsag.rs). -/
def mlsagMAt (c : Crypto) (ring : List Enote) (keys : EnoteKeys)
    (r' : Scalar) (msg : Bytes) (j : ℕ) : Bytes :=
  mlsagM c ring (commit c keys.value r') (clsagKeyImageAt c ring keys j) msg

/-- Linking-layer response scalars s_l of sign_internal (mlsag.rs). -/
def mlsagSLAt (c : Crypto) (ring : List Enote) (keys : EnoteKeys)
    (r' : Scalar) (msg : Bytes) (j : ℕ) : List Scalar :=
  (List.range ring.length).map (fun t =>
    seedChain c (scalarBytes keys.owner ++ scalarBytes r' ++
      mlsagMAt c ring keys r' msg j) (t + 1))

/-- Commitment-layer response scalars s_c of sign_internal (mlsag.rs),
continuing the same chain after the n linking scalars. -/
def mlsagSCAt (c : Crypto) (ring : List Enote) (keys : EnoteKeys)
    (r' : Scalar) (msg : Bytes) (j : ℕ) : List Scalar :=
  (List.range ring.length).map (fun t =>
    seedChain c (scalarBytes keys.owner ++ scalarBytes r' ++
      mlsagMAt c ring keys r' msg j) (ring.length + t + 1))

/-- Starting commitment challenge c_start of sign_internal (mlsag.rs):
the next element of the chain after both response layers. -/
def mlsagCStartAt (c : Crypto) (ring : List Enote) (keys : EnoteKeys)
    (r' : Scalar) (msg : Bytes) (j : ℕ) : Scalar :=
  seedChain c (scalarBytes keys.owner ++ scalarBytes r' ++
    mlsagMAt c ring keys r' msg j) (2 * ring.length + 1)

/-- The ring-walk loop of sign_internal (mlsag.rs), started at the
signer's slot with left = s_l_j·G, right = s_l_j·H_j and
c = s_c_j·G − c_start·C_j. -/
def mlsagWalkAt (c : Crypto) (ring : List Enote) (keys : EnoteKeys)
    (r' : Scalar) (msg : Bytes) (j : ℕ) : Scalar × Scalar :=
  ringWalk ring.length j (mlsagChalOf c (mlsagMAt c ring keys r' msg j))
    (mlsagStep c (mlsagSLAt c ring keys r' msg j) (mlsagSCAt c ring keys r' msg j)
      (clsagHpts c ring) (separateRing ring).1
      (shiftCommitments (separateRing ring).2 (commit c keys.value r'))
      (clsagKeyImageAt c ring keys j))
    ring.length j 1 1
    ((mlsagSLAt c ring keys r' msg j).getD j 0 * Gpt,
     (mlsagSLAt c ring keys r' msg j).getD j 0 * (clsagHpts c ring).getD j 0,
     (mlsagSCAt c ring keys r' msg j).getD j 0 * Gpt +
       (- mlsagCStartAt c ring keys r' msg j) *
         (shiftCommitments (separateRing ring).2 (commit c keys.value r')).getD j 0)

/-- The signature assembled by sign_internal (mlsag.rs): s_l patched
with s_l_j − k·e_j and s_c patched with s_c_j − z·(c_start − e_j). -/
def mlsagSigAt (c : Crypto) (ring : List Enote) (keys : EnoteKeys)
    (r' : Scalar) (msg : Bytes) (j : ℕ) : MLSAGSignature :=
  ⟨clsagKeyImageAt c ring keys j,
   (mlsagWalkAt c ring keys r' msg j).2,
   (mlsagSLAt c ring keys r' msg j).set j
     ((mlsagSLAt c ring keys r' msg j).getD j 0 -
       keys.owner * (mlsagWalkAt c ring keys r' msg j).1),
   (mlsagSCAt c ring keys r' msg j).set j
     ((mlsagSCAt c ring keys r' msg j).getD j 0 -
       (keys.blinding - r') *
         (mlsagCStartAt c ring keys r' msg j - (mlsagWalkAt c ring keys r' msg j).1))⟩

/-- MLSAGSignature::sign_internal. -/
def mlsagSignInternal (c : Crypto) (ring : List Enote) (keys : EnoteKeys)
    (pseudoOutBlinding : Scalar) (msg : Bytes) :
    Except SigErr (Pt × MLSAGSignature) :=
  match findPos (fun e => decide (e = toEnote c keys)) ring with
  | none => .error .EnoteNotInRing
  | some j =>
    .ok (commit c keys.value pseudoOutBlinding,
      mlsagSigAt c ring keys pseudoOutBlinding msg j)

/-- MLSAGSignature::verify_internal. -/
def mlsagVerifyInternal (c : Crypto) (sig : MLSAGSignature)
    (ring : List Enote) (pseudoOut : Pt) (msg : Bytes) :
    Except SigErr Unit :=
  if sig.sL.length ≠ sig.sC.length ∨ sig.sL.length ≠ ring.length then
    .error .Malformed
  else
    let hpts := clsagHpts c ring
    let m := mlsagM c ring pseudoOut sig.keyImage msg
    let ringC := shiftCommitments (separateRing ring).2 pseudoOut
    let final := (List.range ring.length).foldl
      (fun e i => mlsagChalOf c m
        (mlsagStep c sig.sL sig.sC hpts (separateRing ring).1 ringC
          sig.keyImage i e)) sig.e0
    if final = sig.e0 then .ok () else .error .Invalid

/-- MLSAGSignature::sign: sorted-ring precondition, then sign_internal. -/
def mlsagSign (c : Crypto) (ring : List Enote) (keys : EnoteKeys)
    (pseudoOutBlinding : Scalar) (msg : Bytes) :
    Except SigErr (Pt × MLSAGSignature) :=
  if ringIsSorted c ring then mlsagSignInternal c ring keys pseudoOutBlinding msg
  else .error .UnsortedRing

/-- MLSAGSignature::sign_unsorted. -/
def mlsagSignUnsorted (c : Crypto) (ring : List Enote) (keys : EnoteKeys)
    (pseudoOutBlinding : Scalar) (msg : Bytes) :
    Except SigErr (Pt × MLSAGSignature) :=
  mlsagSignInternal c ring keys pseudoOutBlinding msg

/-- MLSAGSignature::verify. -/
def mlsagVerify (c : Crypto) (sig : MLSAGSignature) (ring : List Enote)
    (pseudoOut : Pt) (msg : Bytes) : Except SigErr Unit :=
  if ringIsSorted c ring then mlsagVerifyInternal c sig ring pseudoOut msg
  else .error .UnsortedRing

/-- MLSAGSignature::verify_unsorted. -/
def mlsagVerifyUnsorted (c : Crypto) (sig : MLSAGSignature)
    (ring : List Enote) (pseudoOut : Pt) (msg : Bytes) :
    Except SigErr Unit :=
  mlsagVerifyInternal c sig ring pseudoOut msg

/-- Index visited by the ring walk after t advances from the signer
slot j. -/
def walkIdx (n j t : ℕ) : ℕ := (j + t) % n

/-- Number of advances after which the walk arrives at index i. -/
def stepOf (n j i : ℕ) : ℕ := (i + n - (j + 1)) % n + 1

theorem mod_two_cases (a n : ℕ) (hn : 0 < n) (h : a < 2 * n) :
    a % n = if a < n then a else a - n := by
  split
  · exact Nat.mod_eq_of_lt (by assumption)
  · rw [Nat.mod_eq_sub_mod (by omega), Nat.mod_eq_of_lt (by omega)]

theorem walkIdx_succ (n j t : ℕ) :
    (walkIdx n j t + 1) % n = walkIdx n j (t + 1) := by
  unfold walkIdx
  conv_rhs => rw [show j + (t + 1) = j + t + 1 by omega, Nat.add_mod (j + t) 1 n]
  rw [Nat.add_mod ((j + t) % n) 1 n, Nat.mod_mod_of_dvd _ dvd_rfl]

theorem walkIdx_zero (n j : ℕ) (hjn : j < n) : walkIdx n j 0 = j := by
  simp [walkIdx, Nat.mod_eq_of_lt hjn]

theorem walkIdx_eq_j_iff (n j t : ℕ) (hjn : j < n) (ht1 : 1 ≤ t)
    (ht2 : t ≤ n) : (walkIdx n j t = j) ↔ t = n := by
  unfold walkIdx
  rw [mod_two_cases (j + t) n (by omega) (by omega)]
  split <;> omega

theorem walkIdx_eq_zero_iff (n j t : ℕ) (hjn : j < n) (ht1 : 1 ≤ t)
    (ht2 : t < n) : (walkIdx n j t = 0) ↔ (1 ≤ j ∧ t = n - j) := by
  unfold walkIdx
  rw [mod_two_cases (j + t) n (by omega) (by omega)]
  split <;> omega

theorem stepOf_pos (n j i : ℕ) : 1 ≤ stepOf n j i := by
  unfold stepOf; omega

theorem stepOf_le (n j i : ℕ) (hjn : j < n) : stepOf n j i ≤ n := by
  unfold stepOf
  have := Nat.mod_lt (i + n - (j + 1)) (show 0 < n by omega)
  omega

theorem stepOf_j (n j : ℕ) (hjn : j < n) : stepOf n j j = n := by
  unfold stepOf
  rw [show j + n - (j + 1) = n - 1 by omega, Nat.mod_eq_of_lt (by omega)]
  omega

theorem stepOf_succ_j (n j : ℕ) (hjn : j < n) : stepOf n j (j + 1) = 1 := by
  unfold stepOf
  rw [show j + 1 + n - (j + 1) = n by omega, Nat.mod_self]

theorem stepOf_zero_of_pos (n j : ℕ) (hjn : j < n) (hj : 1 ≤ j) :
    stepOf n j 0 = n - j := by
  unfold stepOf
  rw [Nat.mod_eq_of_lt (by omega)]
  omega

theorem stepOf_zero_of_zero (n : ℕ) (hn : 0 < n) : stepOf n 0 0 = n := by
  unfold stepOf
  rw [Nat.mod_eq_of_lt (by omega)]
  omega

theorem walkIdx_stepOf (n j i : ℕ) (hjn : j < n) (hi : i < n) :
    walkIdx n j (stepOf n j i) = i := by
  unfold walkIdx stepOf
  rw [mod_two_cases (i + n - (j + 1)) n (by omega) (by omega)]
  split
  · rw [show j + (i + n - (j + 1) + 1) = i + n by omega,
      Nat.add_mod_right, Nat.mod_eq_of_lt hi]
  · rw [show j + (i + n - (j + 1) - n + 1) = i by omega,
      Nat.mod_eq_of_lt hi]

theorem stepOf_succ (n j i : ℕ) (hjn : j < n) (hi : i < n) (hij : i ≠ j) :
    stepOf n j (i + 1) = stepOf n j i + 1 := by
  unfold stepOf
  rw [mod_two_cases (i + 1 + n - (j + 1)) n (by omega) (by omega),
    mod_two_cases (i + n - (j + 1)) n (by omega) (by omega)]
  split <;> split <;> omega

theorem stepOf_n (n j : ℕ) (hjn : j < n) : stepOf n j n = stepOf n j 0 := by
  unfold stepOf
  rw [show n + n - (j + 1) = n + (0 + n - (j + 1)) by omega, Nat.add_mod_left]

/-- Challenge produced after t advances of the ring walk, as computed
during signing (walkChal 0 is the unused initializer). -/
def walkChal {σ : Type} (n j : ℕ) (chalOf : σ → Scalar)
    (f : ℕ → Scalar → σ) (s₀ : σ) : ℕ → Scalar
  | 0 => 1
  | 1 => chalOf s₀
  | t + 2 =>
    chalOf (f (walkIdx n j (t + 1)) (walkChal n j chalOf f s₀ (t + 1)))

/-- State hashed at advance t+1 of the walk. -/
def walkState {σ : Type} (n j : ℕ) (chalOf : σ → Scalar)
    (f : ℕ → Scalar → σ) (s₀ : σ) : ℕ → σ
  | 0 => s₀
  | t + 1 => f (walkIdx n j (t + 1)) (walkChal n j chalOf f s₀ (t + 1))

/-- Value of the recorded c_0 after t advances. -/
def walkC0 {σ : Type} (n j : ℕ) (chalOf : σ → Scalar)
    (f : ℕ → Scalar → σ) (s₀ : σ) (t : ℕ) : Scalar :=
  if stepOf n j 0 ≤ t then walkChal n j chalOf f s₀ (stepOf n j 0) else 1

theorem chalOf_walkState {σ : Type} (n j : ℕ) (chalOf : σ → Scalar)
    (f : ℕ → Scalar → σ) (s₀ : σ) (t : ℕ) :
    chalOf (walkState n j chalOf f s₀ t) =
      walkChal n j chalOf f s₀ (t + 1) := by
  cases t with
  | zero => rfl
  | succ t => rfl

theorem ringWalk_succ {σ : Type} (n j : ℕ) (chalOf : σ → Scalar)
    (f : ℕ → Scalar → σ) (fuel i : ℕ) (ci c0 : Scalar) (st : σ) :
    ringWalk n j chalOf f (fuel + 1) i ci c0 st =
      (if (i + 1) % n = j
       then (chalOf st, if (i + 1) % n = 0 then chalOf st else c0)
       else ringWalk n j chalOf f fuel ((i + 1) % n) (chalOf st)
         (if (i + 1) % n = 0 then chalOf st else c0)
         (f ((i + 1) % n) (chalOf st))) := rfl

theorem ringWalk_eq {σ : Type} (n j : ℕ) (chalOf : σ → Scalar)
    (f : ℕ → Scalar → σ) (s₀ : σ) (hjn : j < n) :
    ∀ fuel t : ℕ, t < n → fuel = n - t →
    ringWalk n j chalOf f fuel (walkIdx n j t)
        (walkChal n j chalOf f s₀ t) (walkC0 n j chalOf f s₀ t)
        (walkState n j chalOf f s₀ t) =
      (walkChal n j chalOf f s₀ n,
       walkChal n j chalOf f s₀ (stepOf n j 0)) := by
  intro fuel
  induction fuel with
  | zero => intro t ht hf; omega
  | succ fu ih =>
    intro t ht hf
    rw [ringWalk_succ, walkIdx_succ, chalOf_walkState n j chalOf f s₀ t]
    by_cases hn1 : t + 1 = n
    · have hij : walkIdx n j (t + 1) = j :=
        (walkIdx_eq_j_iff n j (t + 1) hjn (by omega) (by omega)).mpr hn1
      rw [if_pos hij, hn1]
      have hIdxN : walkIdx n j n = walkIdx n j (t + 1) := by rw [hn1]
      by_cases hj0 : j = 0
      · have hz : walkIdx n j n = 0 := by rw [hIdxN, hij]; exact hj0
        rw [if_pos hz, hj0, stepOf_zero_of_zero n (by omega)]
      · have hz : ¬ walkIdx n j n = 0 := by rw [hIdxN, hij]; exact hj0
        rw [if_neg hz]
        have hs0 : stepOf n j 0 = n - j := stepOf_zero_of_pos n j hjn (by omega)
        unfold walkC0
        rw [if_pos (by omega)]
    · have hij : ¬ walkIdx n j (t + 1) = j := by
        rw [walkIdx_eq_j_iff n j (t + 1) hjn (by omega) (by omega)]
        exact hn1
      rw [if_neg hij]
      have hiff := walkIdx_eq_zero_iff n j (t + 1) hjn (by omega) (by omega)
      have hC0 : (if walkIdx n j (t + 1) = 0
          then walkChal n j chalOf f s₀ (t + 1)
          else walkC0 n j chalOf f s₀ t) = walkC0 n j chalOf f s₀ (t + 1) := by
        by_cases hz : walkIdx n j (t + 1) = 0
        · rw [if_pos hz]
          obtain ⟨hj1, hteq⟩ := hiff.mp hz
          have hs0 : stepOf n j 0 = n - j := stepOf_zero_of_pos n j hjn hj1
          unfold walkC0
          rw [if_pos (by omega), hs0, ← hteq]
        · rw [if_neg hz]
          unfold walkC0
          have hne : stepOf n j 0 ≠ t + 1 := by
            intro hEq
            by_cases hj1 : 1 ≤ j
            · exact hz (hiff.mpr ⟨hj1,
                by rw [← hEq, stepOf_zero_of_pos n j hjn hj1]⟩)
            · have hs0 : stepOf n j 0 = n := by
                rw [show j = 0 by omega]
                exact stepOf_zero_of_zero n (by omega)
              omega
          by_cases hle : stepOf n j 0 ≤ t
          · rw [if_pos hle, if_pos (by omega)]
          · rw [if_neg hle, if_neg (by omega)]
      rw [hC0]
      have hst : f (walkIdx n j (t + 1)) (walkChal n j chalOf f s₀ (t + 1)) =
          walkState n j chalOf f s₀ (t + 1) := rfl
      rw [hst]
      exact ih (t + 1) (by omega) (by omega)

theorem verifyFold_aux {σ : Type} (n j : ℕ) (chalOf : σ → Scalar)
    (f : ℕ → Scalar → σ) (s₀ : σ) (hjn : j < n) (g : ℕ → Scalar → σ)
    (hg : ∀ i, i < n → i ≠ j → ∀ ch, g i ch = f i ch)
    (hclose : g j (walkChal n j chalOf f s₀ n) = s₀) :
    ∀ u, u ≤ n →
    (List.range u).foldl (fun ch i => chalOf (g i ch))
        (walkChal n j chalOf f s₀ (stepOf n j 0)) =
      walkChal n j chalOf f s₀ (stepOf n j u) := by
  intro u
  induction u with
  | zero => intro _; rfl
  | succ u ih =>
    intro hu
    rw [List.range_succ, List.foldl_append, ih (by omega)]
    simp only [List.foldl_cons, List.foldl_nil]
    by_cases huj : u = j
    · subst huj
      rw [stepOf_j n u hjn, hclose, stepOf_succ_j n u hjn]
      rfl
    · rw [hg u (by omega) huj]
      rw [stepOf_succ n j u hjn (by omega) huj]
      obtain ⟨t, hT⟩ : ∃ t, stepOf n j u = t + 1 :=
        ⟨stepOf n j u - 1, by have := stepOf_pos n j u; omega⟩
      rw [hT]
      show chalOf (f u _) = walkChal n j chalOf f s₀ (t + 2)
      have hidx : walkIdx n j (t + 1) = u := by
        rw [← hT]; exact walkIdx_stepOf n j u hjn (by omega)
      rw [walkChal, hidx]

theorem verifyFold_eq {σ : Type} (n j : ℕ) (chalOf : σ → Scalar)
    (f : ℕ → Scalar → σ) (s₀ : σ) (hjn : j < n) (g : ℕ → Scalar → σ)
    (hg : ∀ i, i < n → i ≠ j → ∀ ch, g i ch = f i ch)
    (hclose : g j (walkChal n j chalOf f s₀ n) = s₀) :
    (List.range n).foldl (fun ch i => chalOf (g i ch))
        (walkChal n j chalOf f s₀ (stepOf n j 0)) =
      walkChal n j chalOf f s₀ (stepOf n j 0) := by
  rw [verifyFold_aux n j chalOf f s₀ hjn g hg hclose n (by omega),
    stepOf_n n j hjn]

theorem getD_set_ne {α : Type} (l : List α) (i j : ℕ) (x d : α)
    (h : i ≠ j) : (l.set j x).getD i d = l.getD i d := by
  simp [List.getD_eq_getElem?_getD, List.getElem?_set_ne (Ne.symm h)]

theorem getD_set_self {α : Type} (l : List α) (j : ℕ) (x d : α)
    (h : j < l.length) : (l.set j x).getD j d = x := by
  simp [List.getD_eq_getElem?_getD, List.getElem?_set_eq h]

/-- Abstract CLSAG round trip: with the aggregated key of the signer's
slot equal to w·G and the aggregated image equal to w·H_j, the
verification walk started from the recorded c_0 with the patched s
vector returns to c_0. -/
theorem clsag_fold_ok (c : Crypto) (m : Bytes) (n j : ℕ) (s : List Scalar)
    (hpts wLeft : List Pt) (wRight : Pt) (wSecret : Scalar)
    (hjn : j < n) (hsl : s.length = n)
    (hwl : wLeft.getD j 0 = wSecret * Gpt)
    (hwr : wRight = wSecret * hpts.getD j 0) :
    (List.range n).foldl
      (fun ch i => clsagChalOf c m (clsagStep c
        (s.set j (s.getD j 0 -
          (ringWalk n j (clsagChalOf c m) (clsagStep c s hpts wLeft wRight)
            n j 1 1 (s.getD j 0 * Gpt, s.getD j 0 * hpts.getD j 0)).1 * wSecret))
        hpts wLeft wRight i ch))
      ((ringWalk n j (clsagChalOf c m) (clsagStep c s hpts wLeft wRight)
        n j 1 1 (s.getD j 0 * Gpt, s.getD j 0 * hpts.getD j 0)).2) =
    (ringWalk n j (clsagChalOf c m) (clsagStep c s hpts wLeft wRight)
      n j 1 1 (s.getD j 0 * Gpt, s.getD j 0 * hpts.getD j 0)).2 := by
  have hwalk := ringWalk_eq n j (clsagChalOf c m)
    (clsagStep c s hpts wLeft wRight)
    (s.getD j 0 * Gpt, s.getD j 0 * hpts.getD j 0) hjn n 0 (by omega) (by omega)
  rw [walkIdx_zero n j hjn] at hwalk
  have h1 : walkChal n j (clsagChalOf c m) (clsagStep c s hpts wLeft wRight)
      (s.getD j 0 * Gpt, s.getD j 0 * hpts.getD j 0) 0 = 1 := rfl
  have h2 : walkC0 n j (clsagChalOf c m) (clsagStep c s hpts wLeft wRight)
      (s.getD j 0 * Gpt, s.getD j 0 * hpts.getD j 0) 0 = 1 := by
    unfold walkC0
    rw [if_neg (by have := stepOf_pos n j 0; omega)]
  have h3 : walkState n j (clsagChalOf c m) (clsagStep c s hpts wLeft wRight)
      (s.getD j 0 * Gpt, s.getD j 0 * hpts.getD j 0) 0 =
      (s.getD j 0 * Gpt, s.getD j 0 * hpts.getD j 0) := rfl
  rw [h1, h2, h3] at hwalk
  rw [hwalk]
  dsimp only
  refine verifyFold_eq n j (clsagChalOf c m) (clsagStep c s hpts wLeft wRight)
    (s.getD j 0 * Gpt, s.getD j 0 * hpts.getD j 0) hjn _ ?_ ?_
  · intro i hi hij ch
    unfold clsagStep
    rw [getD_set_ne _ _ _ _ _ hij]
  · unfold clsagStep
    rw [getD_set_self _ _ _ _ (by omega), hwl, hwr]
    simp only [Prod.mk.injEq]
    constructor <;> ring

theorem clsagWLeft_at_signer (c : Crypto) (ring : List Enote)
    (keys : EnoteKeys) (r' : Scalar) (m : Bytes) (j : ℕ)
    (hjn : j < ring.length)
    (hget : ring.getD j default = toEnote c keys) :
    (clsagWLeft c ring (commit c keys.value r') m).getD j 0 =
      (domHScalar c m clsagLinkDomain * keys.owner +
        domHScalar c m clsagAuxDomain * (keys.blinding - r')) * Gpt := by
  unfold clsagWLeft
  rw [getD_range_map _ _ _ _ hjn]
  unfold separateRing shiftCommitments
  dsimp only
  rw [getD_map_of_lt Enote.owner ring j 0 default hjn,
    getD_map_of_lt (fun com => com + (0 - commit c keys.value r'))
      (ring.map Enote.commitment) j 0 0 (by simpa using hjn),
    getD_map_of_lt Enote.commitment ring j 0 default hjn, hget]
  unfold toEnote commit
  dsimp only
  ring

theorem clsagVerifyInternal_sigAt (c : Crypto) (ring : List Enote)
    (keys : EnoteKeys) (r' : Scalar) (msg : Bytes) (j : ℕ)
    (hjn : j < ring.length)
    (hget : ring.getD j default = toEnote c keys) :
    clsagVerifyInternal c (clsagSigAt c ring keys r' msg j) ring
      (commit c keys.value r') msg = .ok () := by
  have hslen : (clsagSigAt c ring keys r' msg j).s.length = ring.length := by
    simp [clsagSigAt, clsagSAt]
  have hwl := clsagWLeft_at_signer c ring keys r'
    (clsagMAt c ring keys r' msg j) j hjn hget
  have hwr : clsagWRight c (clsagMAt c ring keys r' msg j)
      (clsagKeyImageAt c ring keys j) (clsagAuxAt c ring keys r' j) =
      clsagWSecretAt c ring keys r' msg j * (clsagHpts c ring).getD j 0 := by
    unfold clsagWRight clsagKeyImageAt clsagAuxAt clsagWSecretAt
    ring
  have hfinal := clsag_fold_ok c (clsagMAt c ring keys r' msg j)
    ring.length j (clsagSAt c ring keys r' msg j) (clsagHpts c ring)
    (clsagWLeft c ring (commit c keys.value r') (clsagMAt c ring keys r' msg j))
    (clsagWRight c (clsagMAt c ring keys r' msg j)
      (clsagKeyImageAt c ring keys j) (clsagAuxAt c ring keys r' j))
    (clsagWSecretAt c ring keys r' msg j) hjn (by simp [clsagSAt])
    (by rw [hwl]; rfl) hwr
  simp only [clsagVerifyInternal]
  split_ifs with hbad hfin
  · exact absurd hslen hbad
  · rfl
  · exact absurd hfinal hfin

/-- Abstract MLSAG round trip: with the signer's linking key equal to
k·G, key image k·H_j and shifted commitment z·G, the verification walk
started from the recorded e_0 with the patched s_l, s_c vectors returns
to e_0. -/
theorem mlsag_fold_ok (c : Crypto) (m : Bytes) (n j : ℕ)
    (sL sC : List Scalar) (hpts ringL ringC : List Pt) (keyImage : Pt)
    (k z cStart : Scalar) (hjn : j < n) (hsl : sL.length = n)
    (hscl : sC.length = n)
    (hL : ringL.getD j 0 = k * Gpt)
    (hKI : keyImage = k * hpts.getD j 0)
    (hC : ringC.getD j 0 = z * Gpt) :
    (List.range n).foldl
      (fun e i => mlsagChalOf c m (mlsagStep c
        (sL.set j (sL.getD j 0 - k *
          (ringWalk n j (mlsagChalOf c m)
            (mlsagStep c sL sC hpts ringL ringC keyImage) n j 1 1
            (sL.getD j 0 * Gpt, sL.getD j 0 * hpts.getD j 0,
              sC.getD j 0 * Gpt + (- cStart) * ringC.getD j 0)).1))
        (sC.set j (sC.getD j 0 - z * (cStart -
          (ringWalk n j (mlsagChalOf c m)
            (mlsagStep c sL sC hpts ringL ringC keyImage) n j 1 1
            (sL.getD j 0 * Gpt, sL.getD j 0 * hpts.getD j 0,
              sC.getD j 0 * Gpt + (- cStart) * ringC.getD j 0)).1)))
        hpts ringL ringC keyImage i e))
      ((ringWalk n j (mlsagChalOf c m)
        (mlsagStep c sL sC hpts ringL ringC keyImage) n j 1 1
        (sL.getD j 0 * Gpt, sL.getD j 0 * hpts.getD j 0,
          sC.getD j 0 * Gpt + (- cStart) * ringC.getD j 0)).2) =
    (ringWalk n j (mlsagChalOf c m)
      (mlsagStep c sL sC hpts ringL ringC keyImage) n j 1 1
      (sL.getD j 0 * Gpt, sL.getD j 0 * hpts.getD j 0,
        sC.getD j 0 * Gpt + (- cStart) * ringC.getD j 0)).2 := by
  have hwalk := ringWalk_eq n j (mlsagChalOf c m)
    (mlsagStep c sL sC hpts ringL ringC keyImage)
    (sL.getD j 0 * Gpt, sL.getD j 0 * hpts.getD j 0,
      sC.getD j 0 * Gpt + (- cStart) * ringC.getD j 0) hjn n 0
    (by omega) (by omega)
  rw [walkIdx_zero n j hjn] at hwalk
  have h1 : walkChal n j (mlsagChalOf c m)
      (mlsagStep c sL sC hpts ringL ringC keyImage)
      (sL.getD j 0 * Gpt, sL.getD j 0 * hpts.getD j 0,
        sC.getD j 0 * Gpt + (- cStart) * ringC.getD j 0) 0 = 1 := rfl
  have h2 : walkC0 n j (mlsagChalOf c m)
      (mlsagStep c sL sC hpts ringL ringC keyImage)
      (sL.getD j 0 * Gpt, sL.getD j 0 * hpts.getD j 0,
        sC.getD j 0 * Gpt + (- cStart) * ringC.getD j 0) 0 = 1 := by
    unfold walkC0
    rw [if_neg (by have := stepOf_pos n j 0; omega)]
  have h3 : walkState n j (mlsagChalOf c m)
      (mlsagStep c sL sC hpts ringL ringC keyImage)
      (sL.getD j 0 * Gpt, sL.getD j 0 * hpts.getD j 0,
        sC.getD j 0 * Gpt + (- cStart) * ringC.getD j 0) 0 =
      (sL.getD j 0 * Gpt, sL.getD j 0 * hpts.getD j 0,
        sC.getD j 0 * Gpt + (- cStart) * ringC.getD j 0) := rfl
  rw [h1, h2, h3] at hwalk
  rw [hwalk]
  dsimp only
  refine verifyFold_eq n j (mlsagChalOf c m)
    (mlsagStep c sL sC hpts ringL ringC keyImage)
    (sL.getD j 0 * Gpt, sL.getD j 0 * hpts.getD j 0,
      sC.getD j 0 * Gpt + (- cStart) * ringC.getD j 0) hjn _ ?_ ?_
  · intro i hi hij ch
    unfold mlsagStep
    rw [getD_set_ne _ _ _ _ _ hij, getD_set_ne _ _ _ _ _ hij]
  · unfold mlsagStep
    rw [getD_set_self _ _ _ _ (by omega), getD_set_self _ _ _ _ (by omega),
      hL, hKI, hC]
    simp only [Prod.mk.injEq]
    refine ⟨by ring, by ring, by ring⟩

theorem ringL_at_signer (c : Crypto) (ring : List Enote)
    (keys : EnoteKeys) (j : ℕ) (hjn : j < ring.length)
    (hget : ring.getD j default = toEnote c keys) :
    (separateRing ring).1.getD j 0 = keys.owner * Gpt := by
  unfold separateRing
  dsimp only
  rw [getD_map_of_lt Enote.owner ring j 0 default hjn, hget]
  rfl

theorem ringC_at_signer (c : Crypto) (ring : List Enote)
    (keys : EnoteKeys) (r' : Scalar) (j : ℕ) (hjn : j < ring.length)
    (hget : ring.getD j default = toEnote c keys) :
    (shiftCommitments (separateRing ring).2 (commit c keys.value r')).getD j 0 =
      (keys.blinding - r') * Gpt := by
  unfold separateRing shiftCommitments
  dsimp only
  rw [getD_map_of_lt (fun com => com + (0 - commit c keys.value r'))
      (ring.map Enote.commitment) j 0 0 (by simpa using hjn),
    getD_map_of_lt Enote.commitment ring j 0 default hjn, hget]
  unfold toEnote commit
  dsimp only
  ring

theorem mlsagVerifyInternal_sigAt (c : Crypto) (ring : List Enote)
    (keys : EnoteKeys) (r' : Scalar) (msg : Bytes) (j : ℕ)
    (hjn : j < ring.length)
    (hget : ring.getD j default = toEnote c keys) :
    mlsagVerifyInternal c (mlsagSigAt c ring keys r' msg j) ring
      (commit c keys.value r') msg = .ok () := by
  have hok : ¬ ((mlsagSigAt c ring keys r' msg j).sL.length ≠
      (mlsagSigAt c ring keys r' msg j).sC.length ∨
      (mlsagSigAt c ring keys r' msg j).sL.length ≠ ring.length) := by
    simp [mlsagSigAt, mlsagSLAt, mlsagSCAt]
  have hfinal := mlsag_fold_ok c (mlsagMAt c ring keys r' msg j)
    ring.length j (mlsagSLAt c ring keys r' msg j)
    (mlsagSCAt c ring keys r' msg j) (clsagHpts c ring)
    (separateRing ring).1
    (shiftCommitments (separateRing ring).2 (commit c keys.value r'))
    (clsagKeyImageAt c ring keys j) keys.owner (keys.blinding - r')
    (mlsagCStartAt c ring keys r' msg j) hjn (by simp [mlsagSLAt])
    (by simp [mlsagSCAt]) (ringL_at_signer c ring keys j hjn hget) rfl
    (ringC_at_signer c ring keys r' j hjn hget)
  simp only [mlsagVerifyInternal]
  split_ifs with hbad
  · rfl
  · exact hbad hfinal

/-- C1: for every canonically sorted ring containing the signer's enote,
every pseudo-output blinding r' and every message, CLSAG and MLSAG sign
return Ok with the pseudo-out commitment Commit(value, r'), and the
sorted verify accepts the resulting signature against that commitment. -/
theorem c1_ring_signature_completeness (c : Crypto) (ring : List Enote)
    (keys : EnoteKeys) (r' : Scalar) (msg : Bytes)
    (hs : ringIsSorted c ring = true)
    (hmem : toEnote c keys ∈ ring) :
    (∃ sig, clsagSign c ring keys r' msg =
        .ok (commit c keys.value r', sig) ∧
      clsagVerify c sig ring (commit c keys.value r') msg = .ok ()) ∧
    (∃ sig, mlsagSign c ring keys r' msg =
        .ok (commit c keys.value r', sig) ∧
      mlsagVerify c sig ring (commit c keys.value r') msg = .ok ()) := by
  obtain ⟨j, hj⟩ := findPos_of_mem (fun e => decide (e = toEnote c keys))
    ring _ hmem (by simp)
  have hjn := findPos_lt _ ring j hj
  have hget : ring.getD j default = toEnote c keys :=
    of_decide_eq_true
      (findPos_getD (fun e => decide (e = toEnote c keys)) default ring j hj)
  constructor
  · refine ⟨clsagSigAt c ring keys r' msg j, ?_, ?_⟩
    · unfold clsagSign
      rw [if_pos hs]
      unfold clsagSignInternal
      rw [hj]
    · unfold clsagVerify
      rw [if_pos hs]
      exact clsagVerifyInternal_sigAt c ring keys r' msg j hjn hget
  · refine ⟨mlsagSigAt c ring keys r' msg j, ?_, ?_⟩
    · unfold mlsagSign
      rw [if_pos hs]
      unfold mlsagSignInternal
      rw [hj]
    · unfold mlsagVerify
      rw [if_pos hs]
      exact mlsagVerifyInternal_sigAt c ring keys r' msg j hjn hget

theorem clsagKeyImageAt_eq (c : Crypto) (ring : List Enote)
    (keys : EnoteKeys) (j : ℕ) (hjn : j < ring.length)
    (hget : ring.getD j default = toEnote c keys) :
    clsagKeyImageAt c ring keys j = getKeyImage c keys.owner := by
  unfold clsagKeyImageAt getKeyImage clsagHpts kiPoints
  have hEncL : clsagEncL c ring = (ring.map Enote.owner).map c.benc := by
    unfold clsagEncL separateRing
    exact encodeRings_fst c _ _
  rw [hEncL, getD_map_of_lt (hKeyImagePoint c) _ j 0 [] (by simpa using hjn),
    getD_map_of_lt c.benc _ j [] 0 (by simpa using hjn),
    getD_map_of_lt Enote.owner ring j 0 default hjn, hget]
  rfl

theorem clsagSign_keyImage (c : Crypto) (ring : List Enote)
    (keys : EnoteKeys) (r' : Scalar) (msg : Bytes) (po : Pt)
    (sig : CLSAGSignature)
    (h : clsagSign c ring keys r' msg = .ok (po, sig)) :
    sig.keyImage = getKeyImage c keys.owner := by
  unfold clsagSign at h
  by_cases hs : ringIsSorted c ring
  · rw [if_pos hs] at h
    unfold clsagSignInternal at h
    cases hf : findPos (fun e => decide (e = toEnote c keys)) ring with
    | none => rw [hf] at h; exact absurd h (by simp)
    | some j =>
      rw [hf] at h
      obtain ⟨-, h2⟩ : commit c keys.value r' = po ∧
          clsagSigAt c ring keys r' msg j = sig := by simpa using h
      rw [← h2]
      exact clsagKeyImageAt_eq c ring keys j (findPos_lt _ ring j hf)
        (of_decide_eq_true (findPos_getD _ default ring j hf))
  · rw [if_neg hs] at h
    exact absurd h (by simp)

theorem mlsagSign_keyImage (c : Crypto) (ring : List Enote)
    (keys : EnoteKeys) (r' : Scalar) (msg : Bytes) (po : Pt)
    (sig : MLSAGSignature)
    (h : mlsagSign c ring keys r' msg = .ok (po, sig)) :
    sig.keyImage = getKeyImage c keys.owner := by
  unfold mlsagSign at h
  by_cases hs : ringIsSorted c ring
  · rw [if_pos hs] at h
    unfold mlsagSignInternal at h
    cases hf : findPos (fun e => decide (e = toEnote c keys)) ring with
    | none => rw [hf] at h; exact absurd h (by simp)
    | some j =>
      rw [hf] at h
      obtain ⟨-, h2⟩ : commit c keys.value r' = po ∧
          mlsagSigAt c ring keys r' msg j = sig := by simpa using h
      rw [← h2]
      exact clsagKeyImageAt_eq c ring keys j (findPos_lt _ ring j hf)
        (of_decide_eq_true (findPos_getD _ default ring j hf))
  · rw [if_neg hs] at h
    exact absurd h (by simp)

/-- C4: every successful CLSAG or MLSAG sign emits
get_key_image(owner) as its key image; consequently signatures by the
same owner scalar have identical key images across rings, blindings and
messages. -/
theorem c4_key_image_of_sign (c : Crypto) :
    (∀ ring keys r' msg po sig,
      clsagSign c ring keys r' msg = .ok (po, sig) →
      sig.keyImage = getKeyImage c keys.owner) ∧
    (∀ ring keys r' msg po sig,
      mlsagSign c ring keys r' msg = .ok (po, sig) →
      sig.keyImage = getKeyImage c keys.owner) ∧
    (∀ ring₁ ring₂ keys₁ keys₂ r₁ r₂ msg₁ msg₂ po₁ po₂ sig₁ sig₂,
      keys₁.owner = keys₂.owner →
      clsagSign c ring₁ keys₁ r₁ msg₁ = .ok (po₁, sig₁) →
      clsagSign c ring₂ keys₂ r₂ msg₂ = .ok (po₂, sig₂) →
      sig₁.keyImage = sig₂.keyImage) := by
  refine ⟨fun ring keys r' msg po sig h =>
      clsagSign_keyImage c ring keys r' msg po sig h,
    fun ring keys r' msg po sig h =>
      mlsagSign_keyImage c ring keys r' msg po sig h,
    fun ring₁ ring₂ keys₁ keys₂ r₁ r₂ msg₁ msg₂ po₁ po₂ sig₁ sig₂ ho h1 h2 => ?_⟩
  rw [clsagSign_keyImage c ring₁ keys₁ r₁ msg₁ po₁ sig₁ h1,
    clsagSign_keyImage c ring₂ keys₂ r₂ msg₂ po₂ sig₂ h2, ho]

/-- C6: on a ring whose encoded sequence is not strictly ascending the
sorted sign/verify of both protocols fail with UnsortedRing, while the
unsorted variants never produce UnsortedRing. -/
theorem c6_sorting_guard (c : Crypto) (ring : List Enote)
    (keys : EnoteKeys) (r' : Scalar) (msg : Bytes) (sigC : CLSAGSignature)
    (sigM : MLSAGSignature) (po : Pt) :
    (ringIsSorted c ring = false →
      clsagSign c ring keys r' msg = .error .UnsortedRing ∧
      clsagVerify c sigC ring po msg = .error .UnsortedRing ∧
      mlsagSign c ring keys r' msg = .error .UnsortedRing ∧
      mlsagVerify c sigM ring po msg = .error .UnsortedRing) ∧
    (clsagSignUnsorted c ring keys r' msg ≠ .error .UnsortedRing ∧
      clsagVerifyUnsorted c sigC ring po msg ≠ .error .UnsortedRing ∧
      mlsagSignUnsorted c ring keys r' msg ≠ .error .UnsortedRing ∧
      mlsagVerifyUnsorted c sigM ring po msg ≠ .error .UnsortedRing) := by
  constructor
  · intro h
    refine ⟨?_, ?_, ?_, ?_⟩ <;>
      simp [clsagSign, clsagVerify, mlsagSign, mlsagVerify, h]
  · refine ⟨?_, ?_, ?_, ?_⟩
    · unfold clsagSignUnsorted clsagSignInternal
      cases hf : findPos (fun e => decide (e = toEnote c keys)) ring <;> simp
    · unfold clsagVerifyUnsorted clsagVerifyInternal
      dsimp only
      split_ifs <;> simp
    · unfold mlsagSignUnsorted mlsagSignInternal
      cases hf : findPos (fun e => decide (e = toEnote c keys)) ring <;> simp
    · unfold mlsagVerifyUnsorted mlsagVerifyInternal
      dsimp only
      split_ifs <;> simp

/-- C3 (amended): get_key_image uses the batch encoding
(double-and-compress) of k·G, not the single-point encode_point; the
key image is k · HashToPoint(batch_encode([k·G])[0], "key_img"), and the
key_image field of a successful CLSAG sign equals that value. -/
theorem c3_key_image_amended (c : Crypto) :
    (∀ k : Scalar, getKeyImage c k =
      k * domHPoint c (c.benc (k * Gpt)) keyImgDomain) ∧
    (∀ ring keys r' msg po sig,
      clsagSign c ring keys r' msg = .ok (po, sig) →
      sig.keyImage =
        keys.owner * domHPoint c (c.benc (keys.owner * Gpt)) keyImgDomain) := by
  refine ⟨fun k => rfl, fun ring keys r' msg po sig h => ?_⟩
  rw [clsagSign_keyImage c ring keys r' msg po sig h]
  rfl

/-- A degenerate instantiation of the cryptographic primitives, used to
evaluate the pipeline on concrete inputs. -/
def trivialCrypto : Crypto :=
  ⟨fun _ => [], fun _ => [], fun _ => [], fun _ => 0⟩

/-- An instantiation separating the single-point encoding from the
batch encoding: enc always yields byte 0, benc byte 1, and the hash to
point distinguishes the two. -/
def splitEncCrypto : Crypto :=
  ⟨fun _ => [0], fun _ => [1], fun _ => [],
   fun bs => if bs.headD 0 = 1 then 1 else 0⟩

/-- C3 counterexample: with an instantiation in which the single-point
and batch encodings differ, get_key_image(k) is not
k · HashToPoint(encode_point(k·G), "key_img"): the code hashes the
batch encoding instead. -/
theorem c3_counterexample :
    ¬ (getKeyImage splitEncCrypto 1 =
      1 * domHPoint splitEncCrypto (splitEncCrypto.enc (1 * Gpt))
        keyImgDomain) := by
  decide

/-- BIT_RANGE (rangeproof/mod.rs). -/
def BIT_RANGE : ℕ := 64

/-- MAX_VALUE (rangeproof/mod.rs): 2^BIT_RANGE − 1. -/
def MAX_VALUE : ℕ := 2 ^ BIT_RANGE - 1

/-- MAX_AGGREGATION_SIZE (rangeproof/mod.rs). -/
def MAX_AGGREGATION_SIZE : ℕ := 256

/-- NUMBER_OF_PROOF_DIGITS (borromean.rs): BIT_RANGE / 2. -/
def NUM_DIGITS : ℕ := BIT_RANGE / 2

/-- quaternary (borromean.rs): little-endian base-4 digits, zero padded
to NUMBER_OF_PROOF_DIGITS entries. -/
def quatGo : ℕ → ℕ → List ℕ
  | 0, _ => []
  | f + 1, n => n % 4 :: quatGo f (n / 4)

/-- Base-4 digit vector of a value (borromean.rs, quaternary). -/
def quaternary (n : ℕ) : List ℕ := quatGo NUM_DIGITS n

/-- BorromeanHTable.positive (borromean.rs): j · 4^i · H (the j = 0
entry is the zero point 0·G = 0·4^i·H). -/
def posH (c : Crypto) (i j : ℕ) : Pt := ((j * 4 ^ i : ℕ) : Scalar) * Hpt c

/-- BorromeanHTable.negative (borromean.rs). -/
def negH (c : Crypto) (i j : ℕ) : Pt := - posH c i j

/-- chameleon_h / vartime_chameleon_h (borromean.rs): hash of m and the
single-point encoding of s·G + e·P (both variants compute the same
point; vartime only changes the multiscalar strategy). -/
def chameleonH (c : Crypto) (m : Bytes) (e s : Scalar) (p : Pt) : Scalar :=
  hScalar c (m ++ c.enc (s * Gpt + e * p))

/-- multi_chameleon_h / vartime_multi_chameleon_h (borromean.rs): hash of
m and the batch encoding of every group's point s·G + e·P. -/
def multiChameleonH (c : Crypto) (m : Bytes)
    (groups : List (Scalar × Scalar × Pt)) : Scalar :=
  hScalar c (m ++
    (batchEncodePoints c
      (groups.map (fun g => g.2.1 * Gpt + g.1 * g.2.2))).flatten)

/-- create_m (borromean.rs): hash of the batch encodings of all rings
followed by the message. -/
def createM (c : Crypto) (rings : List (List Pt)) (msg : Bytes) : Bytes :=
  c.hB ((rings.map (fun ring => (batchEncodePoints c ring).flatten)).flatten
    ++ msg)

/-- Sequential chameleon-hash walk over consecutive (s, P) slots. -/
def chamFold (c : Crypto) (m : Bytes) : Scalar → List (Scalar × Pt) → Scalar
  | e, [] => e
  | e, (s, p) :: rest => chamFold c m (chameleonH c m e s p) rest

/-- borromean_sign (borromean.rs).  The random s values and e_start
values drawn by random_scalar() are passed in as the functions sRand
and eStart.  Per ring i the walk hashes slots indices[i]..n−1 (n =
ring length − 1) from eStart i, the final slot of every ring feeds the
shared seed e_0, and afterwards slot indices[i] of each ring is patched
with sk_i·(eStart i − e) where e is the challenge reached from e_0. -/
def borS0 (sRand : ℕ → ℕ → Scalar) (i : ℕ) : List Scalar :=
  (List.range 4).map (sRand i)

/-- Entry of ring i fed into the shared seed e_0 by borromean_sign
(borromean.rs): the challenge after walking slots indices[i]..n−1 from
eStart i, together with the last slot's response and key. -/
def borEntryS (c : Crypto) (m : Bytes) (rings : List (List Pt))
    (indices : List ℕ) (sRand : ℕ → ℕ → Scalar) (eStart : ℕ → Scalar)
    (i : ℕ) : Scalar × Scalar × Pt :=
  (chamFold c m (eStart i)
    ((((borS0 sRand i).zip (rings.getD i [])).take
      ((rings.getD i []).length - 1)).drop (indices.getD i 0)),
   (borS0 sRand i).getD ((rings.getD i []).length - 1) 0,
   (rings.getD i []).getD ((rings.getD i []).length - 1) 0)

/-- The shared seed e_0 of borromean_sign (borromean.rs). -/
def borE0 (c : Crypto) (rings : List (List Pt)) (indices : List ℕ)
    (msg : Bytes) (sRand : ℕ → ℕ → Scalar) (eStart : ℕ → Scalar) : Scalar :=
  multiChameleonH c (createM c rings msg)
    ((List.range rings.length).map
      (borEntryS c (createM c rings msg) rings indices sRand eStart))

/-- Row i of the s matrix after the closing patch of borromean_sign
(borromean.rs): slot indices[i] is adjusted by sk_i·(eStart i − e),
where e is the challenge reached from e_0 over slots 0..indices[i]−1. -/
def borPatchRow (c : Crypto) (rings : List (List Pt)) (sk : List Scalar)
    (indices : List ℕ) (msg : Bytes) (sRand : ℕ → ℕ → Scalar)
    (eStart : ℕ → Scalar) (i : ℕ) : List Scalar :=
  if i < rings.length then
    (borS0 sRand i).set (indices.getD i 0)
      ((borS0 sRand i).getD (indices.getD i 0) 0 + sk.getD i 0 *
        (eStart i - chamFold c (createM c rings msg)
          (borE0 c rings indices msg sRand eStart)
          (((borS0 sRand i).zip (rings.getD i [])).take (indices.getD i 0))))
  else borS0 sRand i

def borromeanSign (c : Crypto) (rings : List (List Pt)) (sk : List Scalar)
    (indices : List ℕ) (msg : Bytes) (sRand : ℕ → ℕ → Scalar)
    (eStart : ℕ → Scalar) : Scalar × List (List Scalar) :=
  (borE0 c rings indices msg sRand eStart,
   (List.range NUM_DIGITS).map
     (borPatchRow c rings sk indices msg sRand eStart))

/-- borromean_verify (borromean.rs): walk every ring from the stored
e_0 over slots 0..n−1, recombine the final slots with
multi_chameleon_h, and compare with the stored e_0. -/
def borromeanVerifyCore (c : Crypto) (rings : List (List Pt))
    (sig : Scalar × List (List Scalar)) (msg : Bytes) :
    Except RPErr Unit :=
  let m := createM c rings msg
  let entries := (List.range rings.length).map (fun i =>
    let ringi := rings.getD i []
    let si := sig.2.getD i []
    (chamFold c m sig.1 ((si.zip ringi).take (ringi.length - 1)),
     si.getD (ringi.length - 1) 0, ringi.getD (ringi.length - 1) 0))
  if multiChameleonH c m entries = sig.1 then .ok ()
  else .error .Invalid

/-- BorromeanRangeProof (borromean.rs): per-digit commitments and the
aggregate Borromean signature. -/
structure BorromeanRangeProof where
  ci : List Pt
  sig : Scalar × List (List Scalar)
deriving DecidableEq

/-- Blinding factors of the digit commitments (borromean.rs prove): the
first 31 are random, the last is blinding − Σ of the previous ones. -/
def borRVals (blinding : Scalar) (rRand : ℕ → Scalar) : List Scalar :=
  (List.range NUM_DIGITS).map (fun i =>
    if i = NUM_DIGITS - 1 then
      blinding - ((List.range (NUM_DIGITS - 1)).map rRand).sum
    else rRand i)

/-- The ring of candidate commitments for digit position i with digit d
and blinding r (borromean.rs prove): member 0 is c_x, member j is c_0
when j = d and neg[j] + c_x otherwise. -/
def borRing (c : Crypto) (r : Scalar) (i d : ℕ) : List Pt :=
  let c0 : Pt := r * Gpt
  let cx : Pt := c0 + posH c i d
  [cx] ++ (List.range' 1 3).map (fun j => if j = d then c0 else negH c i j + cx)

/-- The ring rebuilt by the verifier from the digit commitment c_i
(borromean.rs verify). -/
def borVRing (c : Crypto) (ci : Pt) (i : ℕ) : List Pt :=
  [ci, negH c i 1 + ci, negH c i 2 + ci, negH c i 3 + ci]

/-- BorromeanRangeProof::prove.  Randomness (random_scalar calls) is
supplied by rRand (digit blindings), sRand (ring responses) and eStart
(ring starting challenges). -/
def borromeanProve (c : Crypto) (value : ℕ) (blinding : Scalar)
    (rRand : ℕ → Scalar) (sRand : ℕ → ℕ → Scalar) (eStart : ℕ → Scalar) :
    Except RPErr (Pt × BorromeanRangeProof) :=
  if value > MAX_VALUE then .error .OutOfRange
  else
    let digits := quaternary value
    let r := borRVals blinding rRand
    let cs := (List.range NUM_DIGITS).map (fun i =>
      r.getD i 0 * Gpt + posH c i (digits.getD i 0))
    let rings := (List.range NUM_DIGITS).map (fun i =>
      borRing c (r.getD i 0) i (digits.getD i 0))
    let cTotal := cs.sum
    .ok (cTotal,
      ⟨cs, borromeanSign c rings r digits (c.enc cTotal) sRand eStart⟩)

/-- BorromeanRangeProof::verify: check that the digit commitments sum
to the total commitment, rebuild the rings, and verify the Borromean
signature. -/
def borromeanVerify (c : Crypto) (commitment : Pt)
    (proof : BorromeanRangeProof) : Except RPErr Unit :=
  if commitment ≠ proof.ci.sum then .error .Invalid
  else
    borromeanVerifyCore c
      ((List.range proof.ci.length).map (fun i =>
        borVRing c (proof.ci.getD i 0) i))
      proof.sig (c.enc commitment)

theorem quatGo_length : ∀ f n, (quatGo f n).length = f
  | 0, _ => rfl
  | f + 1, n => by simp [quatGo, quatGo_length f (n / 4)]

theorem quatGo_getD_lt : ∀ f n i, (quatGo f n).getD i 0 < 4
  | 0, _, _ => by simp [quatGo]
  | f + 1, n, 0 => by
    simp only [quatGo, List.getD_cons_zero]
    omega
  | f + 1, n, i + 1 => by
    simp only [quatGo, List.getD_cons_succ]
    exact quatGo_getD_lt f (n / 4) i

theorem sum_range_succ_map {α : Type} [AddCommMonoid α] (f : ℕ → α) (n : ℕ) :
    ((List.range (n + 1)).map f).sum = ((List.range n).map f).sum + f n := by
  rw [List.range_succ, List.map_append, List.sum_append]
  simp

theorem sum_range_add (f g : ℕ → Pt) : ∀ n : ℕ,
    ((List.range n).map (fun i => f i + g i)).sum =
      ((List.range n).map f).sum + ((List.range n).map g).sum
  | 0 => by simp
  | n + 1 => by
    rw [sum_range_succ_map, sum_range_succ_map, sum_range_succ_map,
      sum_range_add f g n]
    ring

theorem sum_range_mul_right (g : ℕ → Scalar) (x : Pt) : ∀ n : ℕ,
    ((List.range n).map (fun i => g i * x)).sum =
      ((List.range n).map g).sum * x
  | 0 => by simp
  | n + 1 => by
    rw [sum_range_succ_map, sum_range_succ_map, sum_range_mul_right g x n]
    ring

theorem mod_pow_succ4 (f n : ℕ) :
    n % 4 ^ (f + 1) = n % 4 + 4 * (n / 4 % 4 ^ f) := by
  have hp : 4 ^ (f + 1) = 4 * 4 ^ f := by ring
  have hq := Nat.div_add_mod (n / 4) (4 ^ f)
  have hr : n % 4 < 4 := Nat.mod_lt n (by omega)
  have hqq : n / 4 % 4 ^ f < 4 ^ f :=
    Nat.mod_lt (n / 4) (by positivity)
  have hdm := Nat.div_add_mod n 4
  calc n % 4 ^ (f + 1)
      = (4 ^ (f + 1) * (n / 4 / 4 ^ f) + (4 * (n / 4 % 4 ^ f) + n % 4)) %
          4 ^ (f + 1) := by
        congr 1
        have hsplit : 4 ^ (f + 1) * (n / 4 / 4 ^ f) +
            (4 * (n / 4 % 4 ^ f) + n % 4) =
            4 * (4 ^ f * (n / 4 / 4 ^ f) + n / 4 % 4 ^ f) + n % 4 := by ring
        rw [hsplit, hq, hdm]
    _ = (4 * (n / 4 % 4 ^ f) + n % 4) % 4 ^ (f + 1) := by
        rw [Nat.mul_add_mod]
    _ = 4 * (n / 4 % 4 ^ f) + n % 4 := Nat.mod_eq_of_lt (by omega)
    _ = n % 4 + 4 * (n / 4 % 4 ^ f) := by omega

theorem sum_range_mul_left_nat (k : ℕ) (h : ℕ → ℕ) : ∀ n : ℕ,
    ((List.range n).map (fun i => k * h i)).sum =
      k * ((List.range n).map h).sum
  | 0 => by simp
  | n + 1 => by
    rw [sum_range_succ_map, sum_range_succ_map,
      sum_range_mul_left_nat k h n, Nat.mul_add]

theorem quat_sum : ∀ f n : ℕ,
    ((List.range f).map (fun i => (quatGo f n).getD i 0 * 4 ^ i)).sum =
      n % 4 ^ f
  | 0, n => by simp [Nat.mod_one]
  | f + 1, n => by
    rw [List.range_succ_eq_map, List.map_cons, List.sum_cons, List.map_map]
    have hhead : (quatGo (f + 1) n).getD 0 0 * 4 ^ 0 = n % 4 := by
      simp [quatGo]
    have htail : ∀ i ∈ List.range f,
        ((fun i => (quatGo (f + 1) n).getD i 0 * 4 ^ i) ∘ Nat.succ) i =
          4 * ((quatGo f (n / 4)).getD i 0 * 4 ^ i) := by
      intro i _
      simp only [Function.comp, quatGo, List.getD_cons_succ]
      rw [Nat.succ_eq_add_one, pow_succ]
      ring
    rw [hhead, List.map_congr_left htail, sum_range_mul_left_nat,
      quat_sum f (n / 4), mod_pow_succ4]

theorem range'_one_three : List.range' 1 3 = [1, 2, 3] := rfl

theorem borRing_length (c : Crypto) (r : Scalar) (i d : ℕ) :
    (borRing c r i d).length = 4 := by
  simp [borRing, range'_one_three]

theorem borRing_member (c : Crypto) (r : Scalar) (i d : ℕ) (hd : d < 4) :
    (borRing c r i d).getD d 0 = r * Gpt := by
  interval_cases d
  · show r * Gpt + posH c i 0 = r * Gpt
    simp [posH]
  · rfl
  · rfl
  · rfl

theorem borVRing_eq (c : Crypto) (r : Scalar) (i d : ℕ) (hd : d < 4) :
    borVRing c (r * Gpt + posH c i d) i = borRing c r i d := by
  unfold borVRing borRing negH
  rw [range'_one_three]
  interval_cases d <;> norm_num [List.cons.injEq]

theorem exists_len4 {α : Type} : ∀ l : List α, l.length = 4 →
    ∃ a b d f, l = [a, b, d, f]
  | [a, b, d, f], _ => ⟨a, b, d, f, rfl⟩
  | [], h => absurd h (by simp)
  | [_], h => absurd h (by simp)
  | [_, _], h => absurd h (by simp)
  | [_, _, _], h => absurd h (by simp)
  | _ :: _ :: _ :: _ :: _ :: _, h => absurd h (by simp)

/-- Per-ring completeness of the Borromean construction: the entry
point that the verifier computes for a ring (walking from e_0 over the
patched s values) equals the entry point the signer fed into the shared
seed (walking from eStart past the secret slot), because the patch at
the secret slot trades eStart against the challenge reached from e_0. -/
theorem borEntry_roundtrip (c : Crypto) (m : Bytes) (s : List Scalar)
    (rg : List Pt) (idx : ℕ) (skI eSt e0 : Scalar)
    (hs : s.length = 4) (hr : rg.length = 4) (hidx : idx < 4)
    (hmem : rg.getD idx 0 = skI * Gpt) :
    (fun g : Scalar × Scalar × Pt => g.2.1 * Gpt + g.1 * g.2.2)
      (chamFold c m e0
        (((s.set idx (s.getD idx 0 + skI * (eSt -
          chamFold c m e0 ((s.zip rg).take idx)))).zip rg).take
            (rg.length - 1)),
       (s.set idx (s.getD idx 0 + skI * (eSt -
          chamFold c m e0 ((s.zip rg).take idx)))).getD (rg.length - 1) 0,
       rg.getD (rg.length - 1) 0) =
    (fun g : Scalar × Scalar × Pt => g.2.1 * Gpt + g.1 * g.2.2)
      (chamFold c m eSt (((s.zip rg).take (rg.length - 1)).drop idx),
       s.getD (rg.length - 1) 0, rg.getD (rg.length - 1) 0) := by
  obtain ⟨a, b, d, f, rfl⟩ := exists_len4 s hs
  obtain ⟨p0, p1, p2, p3, rfl⟩ := exists_len4 rg hr
  interval_cases idx
  · have hp : p0 = skI * Gpt := hmem
    have h1 : chameleonH c m e0 (a + skI * (eSt - e0)) p0 =
        chameleonH c m eSt a p0 :=
      congrArg (fun q => hScalar c (m ++ c.enc q)) (by rw [hp]; ring)
    show f * Gpt + chameleonH c m (chameleonH c m
        (chameleonH c m e0 (a + skI * (eSt - e0)) p0) b p1) d p2 * p3 =
      f * Gpt + chameleonH c m (chameleonH c m
        (chameleonH c m eSt a p0) b p1) d p2 * p3
    rw [h1]
  · have hp : p1 = skI * Gpt := hmem
    have h1 : chameleonH c m (chameleonH c m e0 a p0)
        (b + skI * (eSt - chameleonH c m e0 a p0)) p1 =
        chameleonH c m eSt b p1 :=
      congrArg (fun q => hScalar c (m ++ c.enc q)) (by rw [hp]; ring)
    show f * Gpt + chameleonH c m (chameleonH c m (chameleonH c m e0 a p0)
        (b + skI * (eSt - chameleonH c m e0 a p0)) p1) d p2 * p3 =
      f * Gpt + chameleonH c m (chameleonH c m eSt b p1) d p2 * p3
    rw [h1]
  · have hp : p2 = skI * Gpt := hmem
    have h1 : chameleonH c m (chameleonH c m (chameleonH c m e0 a p0) b p1)
        (d + skI * (eSt -
          chameleonH c m (chameleonH c m e0 a p0) b p1)) p2 =
        chameleonH c m eSt d p2 :=
      congrArg (fun q => hScalar c (m ++ c.enc q)) (by rw [hp]; ring)
    show f * Gpt + chameleonH c m (chameleonH c m (chameleonH c m e0 a p0)
        b p1) (d + skI * (eSt -
          chameleonH c m (chameleonH c m e0 a p0) b p1)) p2 * p3 =
      f * Gpt + chameleonH c m eSt d p2 * p3
    rw [h1]
  · have hp : p3 = skI * Gpt := hmem
    show (f + skI * (eSt - chameleonH c m (chameleonH c m
        (chameleonH c m e0 a p0) b p1) d p2)) * Gpt +
      chameleonH c m (chameleonH c m (chameleonH c m e0 a p0) b p1) d p2 * p3 =
      f * Gpt + eSt * p3
    rw [hp]
    ring

/-- Completeness of the Borromean aggregate signature: signing with
secrets matching the designated ring slots verifies. -/
theorem borromean_core_complete (c : Crypto) (rings : List (List Pt))
    (sk : List Scalar) (indices : List ℕ) (msg : Bytes)
    (sRand : ℕ → ℕ → Scalar) (eStart : ℕ → Scalar)
    (hlen : rings.length ≤ NUM_DIGITS)
    (hring : ∀ i, i < rings.length → (rings.getD i []).length = 4)
    (hidx : ∀ i, i < rings.length → indices.getD i 0 < 4)
    (hmem : ∀ i, i < rings.length →
      (rings.getD i []).getD (indices.getD i 0) 0 = sk.getD i 0 * Gpt) :
    borromeanVerifyCore c rings
      (borromeanSign c rings sk indices msg sRand eStart) msg = .ok () := by
  unfold borromeanVerifyCore borromeanSign
  dsimp only
  split_ifs with hc
  · rfl
  · exfalso
    apply hc
    have hRow : ∀ i, i < rings.length →
        ((List.range NUM_DIGITS).map
          (borPatchRow c rings sk indices msg sRand eStart)).getD i [] =
        borPatchRow c rings sk indices msg sRand eStart i := by
      intro i hi
      exact getD_range_map _ _ _ _ (lt_of_lt_of_le hi hlen)
    have hE0 : borE0 c rings indices msg sRand eStart =
        multiChameleonH c (createM c rings msg)
          ((List.range rings.length).map
            (borEntryS c (createM c rings msg) rings indices sRand eStart)) :=
      rfl
    conv_rhs => rw [hE0]
    unfold multiChameleonH
    refine congrArg (hScalar c) ?_
    refine congrArg (fun bs => createM c rings msg ++ bs) ?_
    refine congrArg List.flatten ?_
    refine congrArg (batchEncodePoints c) ?_
    rw [List.map_map, List.map_map]
    refine List.map_congr_left ?_
    intro i hi
    have hi' : i < rings.length := List.mem_range.mp hi
    dsimp only [Function.comp]
    rw [hRow i hi']
    unfold borPatchRow
    rw [if_pos hi']
    unfold borEntryS borS0
    exact borEntry_roundtrip c (createM c rings msg)
      ((List.range 4).map (sRand i)) (rings.getD i []) (indices.getD i 0)
      (sk.getD i 0) (eStart i) (borE0 c rings indices msg sRand eStart)
      (by simp) (hring i hi') (hidx i hi') (hmem i hi')

theorem borRVals_sum (blinding : Scalar) (rRand : ℕ → Scalar) :
    (borRVals blinding rRand).sum = blinding := by
  unfold borRVals
  have h32 : NUM_DIGITS = 31 + 1 := rfl
  rw [h32, sum_range_succ_map]
  have hcong : ∀ i ∈ List.range 31,
      (if i = 31 + 1 - 1 then
        blinding - ((List.range (31 + 1 - 1)).map rRand).sum
      else rRand i) = rRand i := by
    intro i hi
    have hlt := List.mem_range.mp hi
    rw [if_neg (by omega)]
  rw [List.map_congr_left hcong, if_pos (by norm_num)]
  have h31 : (31 + 1 - 1 : ℕ) = 31 := rfl
  rw [h31]
  ring

theorem borCs_sum (c : Crypto) (value : ℕ) (blinding : Scalar)
    (rRand : ℕ → Scalar) (hval : value ≤ MAX_VALUE) :
    ((List.range NUM_DIGITS).map (fun i =>
      (borRVals blinding rRand).getD i 0 * Gpt +
        posH c i ((quaternary value).getD i 0))).sum =
    commit c value blinding := by
  rw [sum_range_add, sum_range_mul_right]
  have hr : (List.range NUM_DIGITS).map
      (fun i => (borRVals blinding rRand).getD i 0) =
      borRVals blinding rRand := by
    have hlen : (borRVals blinding rRand).length = NUM_DIGITS := by
      simp [borRVals]
    have hid := range_map_getD (borRVals blinding rRand) id 0
    rw [hlen] at hid
    simpa using hid
  rw [hr, borRVals_sum]
  unfold posH
  rw [sum_range_mul_right]
  have hmap : (List.range NUM_DIGITS).map
      (fun i => (((quaternary value).getD i 0 * 4 ^ i : ℕ) : Scalar)) =
      ((List.range NUM_DIGITS).map
        (fun i => (quaternary value).getD i 0 * 4 ^ i)).map
        (fun n : ℕ => (n : Scalar)) := by
    rw [List.map_map]
    rfl
  rw [hmap, ← Nat.cast_list_sum]
  unfold quaternary
  rw [quat_sum NUM_DIGITS value]
  have hlt : value < 4 ^ NUM_DIGITS := by
    have h4 : (4 : ℕ) ^ NUM_DIGITS = 2 ^ 64 := by
      norm_num [NUM_DIGITS, BIT_RANGE]
    have hmax : MAX_VALUE < 2 ^ 64 := by norm_num [MAX_VALUE, BIT_RANGE]
    omega
  rw [Nat.mod_eq_of_lt hlt]
  rfl

/-- The rings the verifier rebuilds from the digit commitments coincide
with the rings the prover signed over. -/
theorem borVRings_eq (c : Crypto) (value : ℕ) (blinding : Scalar)
    (rRand : ℕ → Scalar) :
    (List.range ((List.range NUM_DIGITS).map (fun i =>
        (borRVals blinding rRand).getD i 0 * Gpt +
          posH c i ((quaternary value).getD i 0))).length).map (fun i =>
      borVRing c (((List.range NUM_DIGITS).map (fun i =>
        (borRVals blinding rRand).getD i 0 * Gpt +
          posH c i ((quaternary value).getD i 0))).getD i 0) i) =
    (List.range NUM_DIGITS).map (fun i =>
      borRing c ((borRVals blinding rRand).getD i 0) i
        ((quaternary value).getD i 0)) := by
  rw [List.length_map, List.length_range]
  refine List.map_congr_left ?_
  intro i hi
  have hi' : i < NUM_DIGITS := List.mem_range.mp hi
  rw [getD_range_map _ _ _ _ hi']
  exact borVRing_eq c _ i _ (quatGo_getD_lt _ _ _)

/-- Completeness of the full Borromean range proof: proving a value in
range yields a commitment equal to commit(value, blinding) and a proof
that verifies against it. -/
theorem borromean_complete (c : Crypto) (value : ℕ) (blinding : Scalar)
    (rRand : ℕ → Scalar) (sRand : ℕ → ℕ → Scalar) (eStart : ℕ → Scalar)
    (hval : value ≤ MAX_VALUE) :
    ∃ proof : BorromeanRangeProof,
      borromeanProve c value blinding rRand sRand eStart =
        .ok (commit c value blinding, proof) ∧
      borromeanVerify c (commit c value blinding) proof = .ok () := by
  have hsum := borCs_sum c value blinding rRand hval
  refine ⟨⟨(List.range NUM_DIGITS).map (fun i =>
      (borRVals blinding rRand).getD i 0 * Gpt +
        posH c i ((quaternary value).getD i 0)),
    borromeanSign c
      ((List.range NUM_DIGITS).map (fun i =>
        borRing c ((borRVals blinding rRand).getD i 0) i
          ((quaternary value).getD i 0)))
      (borRVals blinding rRand) (quaternary value)
      (c.enc (commit c value blinding)) sRand eStart⟩, ?_, ?_⟩
  · unfold borromeanProve
    rw [if_neg (by omega)]
    dsimp only
    rw [hsum]
  · unfold borromeanVerify
    dsimp only
    rw [if_neg (by rw [hsum]; exact fun h => h rfl)]
    rw [borVRings_eq c value blinding rRand]
    refine borromean_core_complete c _ _ _ _ _ _ ?_ ?_ ?_ ?_
    · rw [List.length_map, List.length_range]
    · intro i hi
      rw [List.length_map, List.length_range] at hi
      rw [getD_range_map _ _ _ _ hi]
      exact borRing_length c _ i _
    · intro i hi
      exact quatGo_getD_lt _ _ _
    · intro i hi
      rw [List.length_map, List.length_range] at hi
      rw [getD_range_map _ _ _ _ hi]
      exact borRing_member c _ i _ (quatGo_getD_lt _ _ _)

/-- MAX_BATCH_GROUP_SIZE (bulletplus.rs). -/
def MAX_BATCH_GROUP_SIZE : ℕ := 256

/-- Modelled from the spec: the external Tari bulletproofs_plus crate's
prover and verifier, abstracted over the proof type π.  prove takes the
padded commitments of a statement together with the padded openings of
the witness and either produces a proof or fails; verifyBatch checks a
batch of statements (each given by its padded commitment group) against
the corresponding proofs, reporting success as a Bool (a false stands
for the crate's VerificationFailed error). -/
structure TariBP (π : Type) where
  prove : List Pt → List (ℕ × Scalar) → Option π
  verifyBatch : List (List Pt) → List π → Bool

/-- Padding of a commitment group to the next power of two with zero
commitments (bulletplus.rs prove / batch_verify): power is the rounded-up
base-2 logarithm of the group size, and 2^power − size zero commitments
are prepended. -/
def bpPad (coms : List Pt) : List Pt :=
  List.replicate (2 ^ Nat.clog 2 coms.length - coms.length) 0 ++ coms

/-- Padding of the commitment openings (bulletplus.rs prove) with the
zero opening. -/
def bpPadOpenings (ops : List (ℕ × Scalar)) : List (ℕ × Scalar) :=
  List.replicate (2 ^ Nat.clog 2 ops.length - ops.length) (0, 0) ++ ops

/-- BulletPlusRangeProof::prove (bulletplus.rs). -/
def bpProve {π : Type} (c : Crypto) (tari : TariBP π) (values : List ℕ)
    (blindings : List Scalar) : Except RPErr (List Pt × π) :=
  if values.length ≠ blindings.length then .error .Malformed
  else if values.length > MAX_AGGREGATION_SIZE then
    .error .TooLargeAggregationSize
  else if values.any (fun v => decide (v > MAX_VALUE)) then
    .error .OutOfRange
  else
    let commitments := (values.zip blindings).map (fun q => commit c q.1 q.2)
    match tari.prove (bpPad commitments)
        (bpPadOpenings (values.zip blindings)) with
    | some proof => .ok (commitments, proof)
    | none => .error (.Unspecified "failed to create rangeproof")

/-- Fuelled chunking; chunksOf k l mirrors the Rust slice iterator
chunks(k) used by batch_verify. -/
def chunksGo {α : Type} (k : ℕ) : ℕ → List α → List (List α)
  | 0, _ => []
  | _ + 1, [] => []
  | f + 1, a :: l => ((a :: l).take k) :: chunksGo k f ((a :: l).drop k)

def chunksOf {α : Type} (k : ℕ) (l : List α) : List (List α) :=
  chunksGo k l.length l

/-- BulletPlusRangeProof::batch_verify (bulletplus.rs). -/
def bpBatchVerify {π : Type} (tari : TariBP π)
    (commitments : List (List Pt)) (proofs : List π) : Except RPErr Unit :=
  if commitments.length ≠ proofs.length then .error .Malformed
  else if commitments.any
      (fun grp => decide (grp.length > MAX_AGGREGATION_SIZE)) then
    .error .TooLargeAggregationSize
  else if ((chunksOf MAX_BATCH_GROUP_SIZE commitments).zip
        (chunksOf MAX_BATCH_GROUP_SIZE proofs)).all
      (fun cp => tari.verifyBatch (cp.1.map bpPad) cp.2) then .ok ()
  else .error .Invalid

/-- BulletPlusRangeProof::verify (bulletplus.rs): batch verification of
the singleton batch. -/
def bpVerify {π : Type} (tari : TariBP π) (commitments : List Pt)
    (proof : π) : Except RPErr Unit :=
  bpBatchVerify tari [commitments] [proof]

theorem zip_take_eq {α β : Type} : ∀ (n : ℕ) (A : List α) (B : List β),
    (A.zip B).take n = (A.take n).zip (B.take n)
  | 0, _, _ => by simp
  | _ + 1, [], _ => by simp
  | _ + 1, _ :: _, [] => by simp
  | n + 1, a :: A, b :: B => by
    simp [List.zip_cons_cons, zip_take_eq n A B]

theorem zip_drop_eq {α β : Type} : ∀ (n : ℕ) (A : List α) (B : List β),
    (A.zip B).drop n = (A.drop n).zip (B.drop n)
  | 0, _, _ => by simp
  | _ + 1, [], _ => by simp
  | _ + 1, _ :: _, [] => by simp
  | n + 1, a :: A, b :: B => by
    simp [List.zip_cons_cons, zip_drop_eq n A B]

theorem chunksGo_flatten {α : Type} (k : ℕ) (hk : 0 < k) :
    ∀ (f : ℕ) (l : List α), l.length ≤ f → (chunksGo k f l).flatten = l
  | 0, l, h => by
    have : l = [] := List.eq_nil_of_length_eq_zero (Nat.le_zero.mp h)
    subst this
    rfl
  | f + 1, [], _ => rfl
  | f + 1, a :: l, h => by
    show ((a :: l).take k :: chunksGo k f ((a :: l).drop k)).flatten = a :: l
    rw [List.flatten_cons, chunksGo_flatten k hk f ((a :: l).drop k)
      (by simp at h ⊢; omega)]
    exact List.take_append_drop k (a :: l)

/-- A batched all-check over aligned chunks of two equal-length lists is
the pointwise check over the zipped lists, provided the per-chunk check
is itself pointwise. -/
theorem chunks_all_iff {α β : Type} (k : ℕ) (hk : 0 < k)
    (g : List α → List β → Bool) (h : α × β → Bool)
    (hg : ∀ A B, A.length = B.length →
      (g A B = true ↔ ∀ q ∈ A.zip B, h q = true)) :
    ∀ (f : ℕ) (A : List α) (B : List β), A.length = B.length →
      A.length ≤ f →
    (((chunksGo k f A).zip (chunksGo k f B)).all
        (fun cp => g cp.1 cp.2) = true ↔
      ∀ q ∈ A.zip B, h q = true)
  | 0, A, B, hAB, hA => by
    have hA0 : A = [] := List.eq_nil_of_length_eq_zero (Nat.le_zero.mp hA)
    have hB0 : B = [] := List.eq_nil_of_length_eq_zero (by omega)
    subst hA0; subst hB0
    simp [chunksGo]
  | f + 1, [], B, hAB, hA => by
    have hB0 : B = [] := List.eq_nil_of_length_eq_zero (by simp at hAB; omega)
    subst hB0
    simp [chunksGo]
  | f + 1, a :: A, [], hAB, hA => by simp at hAB
  | f + 1, a :: A, b :: B, hAB, hA => by
    show ((((a :: A).take k :: chunksGo k f ((a :: A).drop k)).zip
        ((b :: B).take k :: chunksGo k f ((b :: B).drop k))).all
        (fun cp => g cp.1 cp.2) = true ↔ _)
    rw [List.zip_cons_cons, List.all_cons, Bool.and_eq_true]
    have hlenAB : (a :: A).length = (b :: B).length := hAB
    have htk : ((a :: A).take k).length = ((b :: B).take k).length := by
      simp [hlenAB]
    have hdk : ((a :: A).drop k).length = ((b :: B).drop k).length := by
      simp [hlenAB]
    have hdf : ((a :: A).drop k).length ≤ f := by
      simp at hA ⊢
      omega
    rw [hg _ _ htk, chunks_all_iff k hk g h hg f _ _ hdk hdf]
    rw [← zip_take_eq, ← zip_drop_eq]
    constructor
    · rintro ⟨h1, h2⟩ q hq
      have hq' : q ∈ ((a :: A).zip (b :: B)).take k ++
          ((a :: A).zip (b :: B)).drop k := by
        rw [List.take_append_drop]
        exact hq
      rcases List.mem_append.mp hq' with hq2 | hq2
      · exact h1 q hq2
      · exact h2 q hq2
    · intro hall
      refine ⟨fun q hq => hall q (List.mem_of_mem_take hq), ?_⟩
      intro q hq
      exact hall q (List.mem_of_mem_drop hq)

theorem bpProve_ok {π : Type} (c : Crypto) (tari : TariBP π)
    (values : List ℕ) (blindings : List Scalar) (p : π)
    (hlen : values.length = blindings.length)
    (hagg : values.length ≤ MAX_AGGREGATION_SIZE)
    (hvals : ∀ v ∈ values, v ≤ MAX_VALUE)
    (hp : tari.prove
      (bpPad ((values.zip blindings).map (fun q => commit c q.1 q.2)))
      (bpPadOpenings (values.zip blindings)) = some p) :
    bpProve c tari values blindings =
      .ok ((values.zip blindings).map (fun q => commit c q.1 q.2), p) := by
  unfold bpProve
  rw [if_neg (not_not_intro hlen)]
  rw [if_neg (by omega)]
  rw [if_neg (by
    simp only [List.any_eq_true, decide_eq_true_eq, not_exists, not_and,
      not_lt]
    exact hvals)]
  dsimp only
  rw [hp]

theorem chunksOf_singleton {α : Type} (x : α) :
    chunksOf MAX_BATCH_GROUP_SIZE [x] = [[x]] := rfl

theorem bpVerify_iff {π : Type} (tari : TariBP π) (coms : List Pt) (p : π)
    (hagg : coms.length ≤ MAX_AGGREGATION_SIZE) :
    (bpVerify tari coms p = .ok () ↔
      tari.verifyBatch [bpPad coms] [p] = true) := by
  unfold bpVerify bpBatchVerify
  rw [if_neg (by simp)]
  rw [if_neg (by
    simp only [List.any_eq_true, decide_eq_true_eq, not_exists, not_and,
      not_lt, List.mem_singleton]
    intro g hg
    rw [hg]
    exact hagg)]
  rw [chunksOf_singleton, chunksOf_singleton]
  simp only [List.zip_cons_cons, List.zip_nil_right, List.all_cons,
    List.all_nil, Bool.and_true, List.map_cons, List.map_nil]
  split_ifs with hb
  · simp [hb]
  · simp [hb]

/-- A trivial instantiation of the abstract Tari prover/verifier, used
to evaluate the wrappers on concrete inputs. -/
def tariUnit : TariBP Unit :=
  ⟨fun _ _ => some (), fun _ _ => true⟩

/-- C2: Range-proof completeness.  For every value v < 2^64 and blinding
r (and any sampled randomness), BorromeanRangeProof::prove returns
Ok((C, proof)) with C = Commitment::commit(v, r) (the 32 digit
commitments sum to C) and BorromeanRangeProof::verify(C, proof) accepts;
and for at most 256 values with a matching-length list of blindings, all
in range, BulletPlusRangeProof::prove returns Ok with the commitments
Commit(v_i, r_i) in input order and a proof accepted by verify.  The
external Tari prover is assumed total and complete (hprove, hcompl). -/
theorem c2_range_proof_completeness (c : Crypto) (value : ℕ)
    (blinding : Scalar) (rRand : ℕ → Scalar) (sRand : ℕ → ℕ → Scalar)
    (eStart : ℕ → Scalar) {π : Type} (tari : TariBP π)
    (values : List ℕ) (blindings : List Scalar)
    (hval : value ≤ MAX_VALUE)
    (hlen : values.length = blindings.length)
    (hagg : values.length ≤ MAX_AGGREGATION_SIZE)
    (hvals : ∀ v ∈ values, v ≤ MAX_VALUE)
    (hprove : ∀ coms ops, ∃ p, tari.prove coms ops = some p)
    (hcompl : ∀ coms ops p, tari.prove coms ops = some p →
      tari.verifyBatch [coms] [p] = true) :
    (∃ proof : BorromeanRangeProof,
      borromeanProve c value blinding rRand sRand eStart =
        .ok (commit c value blinding, proof) ∧
      borromeanVerify c (commit c value blinding) proof = .ok ()) ∧
    (∃ p : π,
      bpProve c tari values blindings =
        .ok ((values.zip blindings).map (fun q => commit c q.1 q.2), p) ∧
      bpVerify tari
        ((values.zip blindings).map (fun q => commit c q.1 q.2)) p =
        .ok ()) := by
  refine ⟨borromean_complete c value blinding rRand sRand eStart hval, ?_⟩
  obtain ⟨p, hp⟩ := hprove
    (bpPad ((values.zip blindings).map (fun q => commit c q.1 q.2)))
    (bpPadOpenings (values.zip blindings))
  refine ⟨p, bpProve_ok c tari values blindings p hlen hagg hvals hp, ?_⟩
  have hlc : ((values.zip blindings).map
      (fun q => commit c q.1 q.2)).length ≤ MAX_AGGREGATION_SIZE := by
    simp only [List.length_map, List.length_zip]
    omega
  exact (bpVerify_iff tari _ p hlc).mpr (hcompl _ _ p hp)

/-- C7: BulletPlusRangeProof::batch_verify, on equal-length inputs whose
commitment groups each have at most 256 elements, accepts iff every
(commitments[i], proofs[i]) pair individually verifies; the inputs are
split into consecutive chunks of 256 statements, and when some pair is
invalid the whole call returns the Invalid error.  The external Tari
batch verifier is assumed equivalent to its pointwise checks (hiff). -/
theorem c7_batch_verify_iff {π : Type} (tari : TariBP π)
    (commitments : List (List Pt)) (proofs : List π)
    (hlen : commitments.length = proofs.length)
    (hagg : ∀ grp ∈ commitments, grp.length ≤ MAX_AGGREGATION_SIZE)
    (hiff : ∀ ss ps, ss.length = ps.length →
      (tari.verifyBatch ss ps = true ↔
        ∀ q ∈ ss.zip ps, tari.verifyBatch [q.1] [q.2] = true)) :
    (bpBatchVerify tari commitments proofs = .ok () ↔
      ∀ q ∈ commitments.zip proofs, bpVerify tari q.1 q.2 = .ok ()) ∧
    (bpBatchVerify tari commitments proofs = .ok () ∨
      bpBatchVerify tari commitments proofs = .error .Invalid) := by
  have hiffall : (((chunksOf MAX_BATCH_GROUP_SIZE commitments).zip
      (chunksOf MAX_BATCH_GROUP_SIZE proofs)).all
      (fun cp => tari.verifyBatch (cp.1.map bpPad) cp.2) = true) ↔
      ∀ q ∈ commitments.zip proofs,
        tari.verifyBatch [bpPad q.1] [q.2] = true := by
    unfold chunksOf
    rw [← hlen]
    refine chunks_all_iff MAX_BATCH_GROUP_SIZE
      (by norm_num [MAX_BATCH_GROUP_SIZE])
      (fun A B => tari.verifyBatch (A.map bpPad) B)
      (fun q => tari.verifyBatch [bpPad q.1] [q.2])
      ?_ commitments.length commitments proofs hlen le_rfl
    intro A B hAB
    rw [hiff (A.map bpPad) B (by simpa using hAB), List.zip_map_left]
    constructor
    · intro hall q hq
      have := hall (Prod.map bpPad id q) (List.mem_map_of_mem _ hq)
      simpa using this
    · intro hall q hq
      obtain ⟨q', hq', rfl⟩ := List.mem_map.mp hq
      simpa using hall q' hq'
  have hpt : ∀ q ∈ commitments.zip proofs,
      (bpVerify tari q.1 q.2 = .ok () ↔
        tari.verifyBatch [bpPad q.1] [q.2] = true) := by
    intro q hq
    exact bpVerify_iff tari q.1 q.2 (hagg q.1 (List.mem_zip hq).1)
  unfold bpBatchVerify
  rw [if_neg (not_not_intro hlen)]
  rw [if_neg (by
    simp only [List.any_eq_true, decide_eq_true_eq, not_exists, not_and,
      not_lt]
    exact hagg)]
  split_ifs with hb
  · refine ⟨iff_of_true rfl ?_, Or.inl rfl⟩
    intro q hq
    exact (hpt q hq).mpr (hiffall.mp hb q hq)
  · refine ⟨iff_of_false (by simp) ?_, Or.inr rfl⟩
    intro hall
    exact hb (hiffall.mpr (fun q hq => (hpt q hq).mp (hall q hq)))

/-- C8 counterexample: a value ≥ 2^64 does not in general make
BulletPlusRangeProof::prove return OutOfRange — the length check runs
first, so prove([2^64], []) returns Malformed instead. -/
theorem c8_counterexample :
    ¬(bpProve trivialCrypto tariUnit [2 ^ 64] [] =
      .error .OutOfRange) := by decide

/-- C8 (amended): at proving time a value ≥ 2^64 makes
BorromeanRangeProof::prove return OutOfRange unconditionally, and makes
BulletPlusRangeProof::prove return OutOfRange provided the blindings
list has matching length and at most 256 values are supplied (the
length and aggregation-size checks run first); more than 256 values
(with matching blindings) yield TooLargeAggregationSize, as does any
batch_verify commitment group longer than 256 when the proof count
matches. -/
theorem c8_range_rejection_amended (c : Crypto) {π : Type}
    (tari : TariBP π) (value : ℕ) (blinding : Scalar)
    (rRand : ℕ → Scalar) (sRand : ℕ → ℕ → Scalar) (eStart : ℕ → Scalar)
    (values : List ℕ) (blindings : List Scalar)
    (C : List (List Pt)) (P : List π) :
    (value > MAX_VALUE →
      borromeanProve c value blinding rRand sRand eStart =
        .error .OutOfRange) ∧
    (values.length = blindings.length →
      values.length ≤ MAX_AGGREGATION_SIZE →
      (∃ v ∈ values, v > MAX_VALUE) →
      bpProve c tari values blindings = .error .OutOfRange) ∧
    (values.length = blindings.length →
      values.length > MAX_AGGREGATION_SIZE →
      bpProve c tari values blindings =
        .error .TooLargeAggregationSize) ∧
    (C.length = P.length → (∃ grp ∈ C, grp.length > MAX_AGGREGATION_SIZE) →
      bpBatchVerify tari C P = .error .TooLargeAggregationSize) := by
  refine ⟨?_, ?_, ?_, ?_⟩
  · intro h
    unfold borromeanProve
    rw [if_pos h]
  · intro h1 h2 h3
    unfold bpProve
    rw [if_neg (not_not_intro h1), if_neg (by omega)]
    rw [if_pos (by
      simp only [List.any_eq_true, decide_eq_true_eq]
      exact h3)]
  · intro h1 h2
    unfold bpProve
    rw [if_neg (not_not_intro h1), if_pos h2]
  · intro h1 h2
    unfold bpBatchVerify
    rw [if_neg (not_not_intro h1)]
    rw [if_pos (by
      simp only [List.any_eq_true, decide_eq_true_eq]
      exact h2)]

/-- C9: the equal-length guards run first: prove returns Malformed
whenever the values and blindings lists have different lengths, and
batch_verify returns Malformed whenever the commitment and proof lists
have different lengths — regardless of the elements themselves. -/
theorem c9_malformed_length_guard (c : Crypto) {π : Type}
    (tari : TariBP π) (values : List ℕ) (blindings : List Scalar)
    (C : List (List Pt)) (P : List π) :
    (values.length ≠ blindings.length →
      bpProve c tari values blindings = .error .Malformed) ∧
    (C.length ≠ P.length →
      bpBatchVerify tari C P = .error .Malformed) := by
  constructor
  · intro h
    unfold bpProve
    rw [if_pos h]
  · intro h
    unfold bpBatchVerify
    rw [if_pos h]

/-- Concrete signer keys used to evaluate the pipeline. -/
def eK0 : EnoteKeys := ⟨1, 0, 0⟩

/-- Singleton ring holding the concrete signer's enote. -/
def ring0 : List Enote := [toEnote trivialCrypto eK0]

/-- A duplicate-containing (hence unsorted) two-element ring. -/
def ring2 : List Enote := [toEnote trivialCrypto eK0, toEnote trivialCrypto eK0]

theorem c1_witness :
    ringIsSorted trivialCrypto ring0 = true ∧
    toEnote trivialCrypto eK0 ∈ ring0 ∧
    ((∃ sig, clsagSign trivialCrypto ring0 eK0 0 [] =
        .ok (commit trivialCrypto eK0.value 0, sig) ∧
      clsagVerify trivialCrypto sig ring0 (commit trivialCrypto eK0.value 0)
        [] = .ok ()) ∧
    (∃ sig, mlsagSign trivialCrypto ring0 eK0 0 [] =
        .ok (commit trivialCrypto eK0.value 0, sig) ∧
      mlsagVerify trivialCrypto sig ring0 (commit trivialCrypto eK0.value 0)
        [] = .ok ())) :=
  ⟨by decide, List.mem_singleton.mpr rfl,
   c1_ring_signature_completeness trivialCrypto ring0 eK0 0 [] (by decide)
     (List.mem_singleton.mpr rfl)⟩

theorem c2_witness :
    (0 : ℕ) ≤ MAX_VALUE ∧
    (∀ coms ops, ∃ p, tariUnit.prove coms ops = some p) ∧
    (∀ coms ops p, tariUnit.prove coms ops = some p →
      tariUnit.verifyBatch [coms] [p] = true) ∧
    ((∃ proof : BorromeanRangeProof,
      borromeanProve trivialCrypto 0 0 (fun _ => 0) (fun _ _ => 0)
          (fun _ => 0) = .ok (commit trivialCrypto 0 0, proof) ∧
      borromeanVerify trivialCrypto (commit trivialCrypto 0 0) proof =
        .ok ()) ∧
    (∃ p : Unit,
      bpProve trivialCrypto tariUnit [] [] =
        .ok ((([] : List ℕ).zip ([] : List Scalar)).map
          (fun q => commit trivialCrypto q.1 q.2), p) ∧
      bpVerify tariUnit ((([] : List ℕ).zip ([] : List Scalar)).map
        (fun q => commit trivialCrypto q.1 q.2)) p = .ok ())) :=
  ⟨by decide, fun _ _ => ⟨(), rfl⟩, fun _ _ _ _ => rfl,
   c2_range_proof_completeness trivialCrypto 0 0 (fun _ => 0) (fun _ _ => 0)
     (fun _ => 0) tariUnit [] [] (by decide) rfl (by decide) (by simp)
     (fun _ _ => ⟨(), rfl⟩) (fun _ _ _ _ => rfl)⟩

theorem c3_witness :
    clsagSign trivialCrypto ring0 eK0 0 [] =
      .ok (commit trivialCrypto 0 0,
        clsagSigAt trivialCrypto ring0 eK0 0 [] 0) ∧
    (clsagSigAt trivialCrypto ring0 eK0 0 [] 0).keyImage =
      eK0.owner * domHPoint trivialCrypto
        (trivialCrypto.benc (eK0.owner * Gpt)) keyImgDomain :=
  ⟨by decide,
   (c3_key_image_amended trivialCrypto).2 ring0 eK0 0 []
     (commit trivialCrypto 0 0) (clsagSigAt trivialCrypto ring0 eK0 0 [] 0)
     (by decide)⟩

theorem c4_witness :
    clsagSign trivialCrypto ring0 eK0 0 [] =
      .ok (commit trivialCrypto 0 0,
        clsagSigAt trivialCrypto ring0 eK0 0 [] 0) ∧
    mlsagSign trivialCrypto ring0 eK0 0 [] =
      .ok (commit trivialCrypto 0 0,
        mlsagSigAt trivialCrypto ring0 eK0 0 [] 0) ∧
    (clsagSigAt trivialCrypto ring0 eK0 0 [] 0).keyImage =
      getKeyImage trivialCrypto eK0.owner ∧
    (mlsagSigAt trivialCrypto ring0 eK0 0 [] 0).keyImage =
      getKeyImage trivialCrypto eK0.owner :=
  ⟨by decide, by decide,
   (c4_key_image_of_sign trivialCrypto).1 ring0 eK0 0 []
     (commit trivialCrypto 0 0) (clsagSigAt trivialCrypto ring0 eK0 0 [] 0)
     (by decide),
   (c4_key_image_of_sign trivialCrypto).2.1 ring0 eK0 0 []
     (commit trivialCrypto 0 0) (mlsagSigAt trivialCrypto ring0 eK0 0 [] 0)
     (by decide)⟩

theorem c5_witness :
    ([commit trivialCrypto 1 0] =
      [((1 : ℕ), (0 : Scalar))].map (fun p => commit trivialCrypto p.1 p.2)) ∧
    (([((1 : ℕ), (0 : Scalar))].map Prod.fst).sum =
      ([((1 : ℕ), (0 : Scalar))].map Prod.fst).sum + 0) ∧
    (([((1 : ℕ), (0 : Scalar))].map Prod.snd).sum =
      ([((1 : ℕ), (0 : Scalar))].map Prod.snd).sum) ∧
    isBalanced trivialCrypto [commit trivialCrypto 1 0]
      [commit trivialCrypto 1 0] 0 = true :=
  ⟨rfl, by decide, rfl,
   (c5_is_balanced_spec trivialCrypto [commit trivialCrypto 1 0]
       [commit trivialCrypto 1 0] 0).2
     [((1 : ℕ), (0 : Scalar))] [((1 : ℕ), (0 : Scalar))] rfl rfl
     (by decide) rfl⟩

theorem c6_witness :
    ringIsSorted trivialCrypto ring2 = false ∧
    ((clsagSign trivialCrypto ring2 eK0 0 [] = .error .UnsortedRing ∧
      clsagVerify trivialCrypto ⟨0, 0, [], 0⟩ ring2 0 [] =
        .error .UnsortedRing ∧
      mlsagSign trivialCrypto ring2 eK0 0 [] = .error .UnsortedRing ∧
      mlsagVerify trivialCrypto ⟨0, 0, [], []⟩ ring2 0 [] =
        .error .UnsortedRing) ∧
    (clsagSignUnsorted trivialCrypto ring2 eK0 0 [] ≠
        .error .UnsortedRing ∧
      clsagVerifyUnsorted trivialCrypto ⟨0, 0, [], 0⟩ ring2 0 [] ≠
        .error .UnsortedRing ∧
      mlsagSignUnsorted trivialCrypto ring2 eK0 0 [] ≠
        .error .UnsortedRing ∧
      mlsagVerifyUnsorted trivialCrypto ⟨0, 0, [], []⟩ ring2 0 [] ≠
        .error .UnsortedRing)) :=
  ⟨by decide,
   (c6_sorting_guard trivialCrypto ring2 eK0 0 [] ⟨0, 0, [], 0⟩
       ⟨0, 0, [], []⟩ 0).1 (by decide),
   (c6_sorting_guard trivialCrypto ring2 eK0 0 [] ⟨0, 0, [], 0⟩
       ⟨0, 0, [], []⟩ 0).2⟩

theorem c7_witness :
    ([[]] : List (List Pt)).length = [()].length ∧
    (∀ grp ∈ ([[]] : List (List Pt)), grp.length ≤ MAX_AGGREGATION_SIZE) ∧
    ((bpBatchVerify tariUnit [[]] [()] = .ok () ↔
      ∀ q ∈ ([[]] : List (List Pt)).zip [()],
        bpVerify tariUnit q.1 q.2 = .ok ()) ∧
    (bpBatchVerify tariUnit [[]] [()] = .ok () ∨
      bpBatchVerify tariUnit [[]] [()] = .error .Invalid)) :=
  ⟨rfl, by decide,
   c7_batch_verify_iff tariUnit [[]] [()] rfl (by decide)
     (fun ss ps h => iff_of_true rfl (fun q hq => rfl))⟩

set_option maxRecDepth 4000 in
theorem c8_witness :
    (2 ^ 64 > MAX_VALUE) ∧
    borromeanProve trivialCrypto (2 ^ 64) 0 (fun _ => 0) (fun _ _ => 0)
      (fun _ => 0) = .error .OutOfRange ∧
    bpProve trivialCrypto tariUnit [2 ^ 64] [0] = .error .OutOfRange ∧
    bpProve trivialCrypto tariUnit (List.replicate 257 0)
      (List.replicate 257 0) = .error .TooLargeAggregationSize ∧
    bpBatchVerify tariUnit [List.replicate 257 (0 : Pt)] [()] =
      .error .TooLargeAggregationSize :=
  ⟨by decide,
   (c8_range_rejection_amended trivialCrypto tariUnit (2 ^ 64) 0
       (fun _ => 0) (fun _ _ => 0) (fun _ => 0) [2 ^ 64] [0]
       [List.replicate 257 (0 : Pt)] [()]).1 (by decide),
   (c8_range_rejection_amended trivialCrypto tariUnit (2 ^ 64) 0
       (fun _ => 0) (fun _ _ => 0) (fun _ => 0) [2 ^ 64] [0]
       [List.replicate 257 (0 : Pt)] [()]).2.1 rfl (by decide) (by decide),
   (c8_range_rejection_amended trivialCrypto tariUnit (2 ^ 64) 0
       (fun _ => 0) (fun _ _ => 0) (fun _ => 0) (List.replicate 257 0)
       (List.replicate 257 0)
       [List.replicate 257 (0 : Pt)] [()]).2.2.1 (by simp)
     (by simp [MAX_AGGREGATION_SIZE]),
   (c8_range_rejection_amended trivialCrypto tariUnit (2 ^ 64) 0
       (fun _ => 0) (fun _ _ => 0) (fun _ => 0) [2 ^ 64] [0]
       [List.replicate 257 (0 : Pt)] [()]).2.2.2 rfl
     ⟨List.replicate 257 (0 : Pt), List.mem_singleton.mpr rfl,
      by simp [MAX_AGGREGATION_SIZE]⟩⟩

theorem c9_witness :
    ([(0 : ℕ)].length ≠ ([] : List Scalar).length) ∧
    bpProve trivialCrypto tariUnit [0] [] = .error .Malformed ∧
    (([] : List (List Pt)).length ≠ [()].length) ∧
    bpBatchVerify tariUnit [] [()] = .error .Malformed :=
  ⟨by decide,
   (c9_malformed_length_guard trivialCrypto tariUnit [0] [] [] [()]).1
     (by decide),
   by decide,
   (c9_malformed_length_guard trivialCrypto tariUnit [0] [] [] [()]).2
     (by decide)⟩

theorem c10_witness :
    ringIsSorted trivialCrypto ring0 = true ∧
    ringAsSorted trivialCrypto ring0 = ring0 :=
  ⟨by decide, (c10_ring_sort_spec trivialCrypto ring0).2.2.1 (by decide)⟩
